import Mathlib

/-
Verification of the payjoin URI module (payjoin/src/core/uri/mod.rs and
payjoin/src/core/uri/url_ext.rs).

Rust strings are modelled as lists of characters. The external url crate's
parsed Url value is modelled as a record of the components this module reads
and writes. Fallible Rust code is modelled with Except or Option; a Rust
panic (expect / unwrap) is modelled as the error / none case of the result.
-/

namespace Payjoin

/-- Modelled from the spec: OutputSubstitution (crate::output_substitution, a
module not among the given sources) is the sum type {Enabled, Disabled} with
default Enabled. -/
inductive OutputSubstitution
  | Enabled
  | Disabled
deriving DecidableEq, Repr

/-- Model of the external url crate's parsed Url value, restricted to the
components this module reads and writes: scheme, host, path, query and
fragment. The url crate guarantees a host for the special schemes http and
https, so the host is modelled as always present. -/
structure Url where
  scheme : List Char
  host : List Char
  path : List Char
  query : Option (List Char)
  fragment : Option (List Char)
deriving DecidableEq, Repr

/-- Model of the url crate's domain accessor. For every host the security gate
can accept (a name ending in ".onion") the url crate parses the host as a
domain, never as an IP address, so domain is modelled as returning the host. -/
def Url.domain (u : Url) : Option (List Char) :=
  some u.host

/-- Textual form of a Url as produced by the url crate's as_str: scheme, "://",
host, path, then the query prefixed by '?' and the fragment prefixed by '#'
when present. -/
def Url.as_str (u : Url) : List Char :=
  u.scheme ++ "://".data ++ u.host ++ u.path
    ++ (match u.query with | none => [] | some q => '?' :: q)
    ++ (match u.fragment with | none => [] | some f => '#' :: f)

/-- Modelled from the spec: endpoint parse failures carried by the BadEndpoint
query error (payjoin/src/core/uri/error.rs is not among the given sources).
UrlParse abstracts the external url crate's parse error value. -/
inductive BadEndpointError
  | UrlParse
  | LowercaseFragment
deriving DecidableEq, Repr

/-- Modelled from the spec: the query-level error family listed in the spec's
error handling design (payjoin/src/core/uri/error.rs is not among the given
sources). -/
inductive InternalPjParseError
  | NotUtf8
  | DuplicateParams (key : String)
  | BadPjOs
  | MissingEndpoint
  | UnsecureEndpoint
  | BadEndpoint (e : BadEndpointError)
deriving DecidableEq, Repr

/-- Validated payjoin parameters (struct PayjoinExtras in mod.rs). -/
structure PayjoinExtras where
  endpoint : Url
  output_substitution : OutputSubstitution
deriving DecidableEq, Repr

/-- Top-level parse result (enum MaybePayjoinExtras in mod.rs). -/
inductive MaybePayjoinExtras
  | Supported (extras : PayjoinExtras)
  | Unsupported
deriving DecidableEq, Repr

/-- Accumulating state of the query-parameter parse (struct DeserializationState
in mod.rs); both fields default to none. -/
structure DeserializationState where
  pj : Option Url := none
  pjos : Option OutputSubstitution := none
deriving DecidableEq, Repr

/-- Result kind reported to the external bitcoin_uri layer for one query key. -/
inductive ParamKind
  | Known
  | Unknown
deriving DecidableEq, Repr

/-- A raw query-parameter value as handed over by the external bitcoin_uri
layer: some s when the percent-decoded bytes are valid UTF-8 reading s, none
when they are not (Cow::try_from fails on the value). -/
def Param : Type := Option (List Char)

/-- Function parse_with_fragment in url_ext.rs, parameterized by the external
url crate parser urlParse (Url::parse; none models its parse error). The
lowercase check models Rust char::is_lowercase with Char.isLower; the
fragments this module accepts are ASCII, where the two coincide. -/
def parse_with_fragment (urlParse : List Char → Option Url) (endpoint : List Char) :
    Except BadEndpointError Url :=
  match urlParse endpoint with
  | none => .error .UrlParse
  | some url =>
    match url.fragment with
    | some fragment =>
      if fragment.any (fun c => c.isLower) then .error .LowercaseFragment
      else .ok url
    | none => .ok url

/-- Method DeserializationState::deserialize_temp in mod.rs (with the v2
feature, so the pj value goes through parse_with_fragment), written in state
passing style; the Rust method mutates self and returns the ParamKind. -/
def DeserializationState.deserialize_temp (urlParse : List Char → Option Url)
    (st : DeserializationState) (key : String) (value : Param) :
    Except InternalPjParseError (DeserializationState × ParamKind) :=
  if key = "pj" then
    if st.pj = none then
      match value with
      | none => .error .NotUtf8
      | some endpoint =>
        match parse_with_fragment urlParse endpoint with
        | .error e => .error (.BadEndpoint e)
        | .ok url => .ok ({ st with pj := some url }, .Known)
    else .error (.DuplicateParams "pj")
  else if key = "pjos" then
    if st.pjos = none then
      match value with
      | none => .error .BadPjOs
      | some v =>
        if v = "0".data then .ok ({ st with pjos := some .Disabled }, .Known)
        else if v = "1".data then .ok ({ st with pjos := some .Enabled }, .Known)
        else .error .BadPjOs
    else .error (.DuplicateParams "pjos")
  else .ok (st, .Unknown)

/-- Method DeserializationState::finalize in mod.rs. -/
def DeserializationState.finalize (st : DeserializationState) :
    Except InternalPjParseError MaybePayjoinExtras :=
  match st.pj, st.pjos with
  | none, none => .ok .Unsupported
  | none, some _ => .error .MissingEndpoint
  | some endpoint, pjos =>
    if endpoint.scheme = "https".data
        ∨ (endpoint.scheme = "http".data
            ∧ ".onion".data.isSuffixOf (endpoint.domain.getD []) = true) then
      .ok (.Supported ⟨endpoint, pjos.getD .Enabled⟩)
    else .error .UnsecureEndpoint

/-- Fold of deserialize_temp over a query-parameter list in presentation
order, as driven by the external bitcoin_uri deserializer. -/
def runSteps (urlParse : List Char → Option Url) (st : DeserializationState) :
    List (String × Param) → Except InternalPjParseError DeserializationState
  | [] => .ok st
  | (key, value) :: rest =>
    match st.deserialize_temp urlParse key value with
    | .error e => .error e
    | .ok (st', _) => runSteps urlParse st' rest

/-- Complete parse of a query-parameter list: fold the steps from the default
state, then finalize. -/
def deserializeAll (urlParse : List Char → Option Url)
    (params : List (String × Param)) : Except InternalPjParseError MaybePayjoinExtras :=
  match runSteps urlParse {} params with
  | .error e => .error e
  | .ok st => st.finalize

/-- First-occurrence replacement, modelling Rust str::replacen(pat, rep, 1):
the leftmost occurrence of pat (the whole string scanned left to right) is
replaced by rep, the rest is unchanged. -/
def replacen1 (l pat rep : List Char) : List Char :=
  match l with
  | [] => if pat = [] then rep else []
  | c :: rest =>
    if pat.isPrefixOf (c :: rest) then rep ++ (c :: rest).drop pat.length
    else c :: replacen1 rest pat rep

/-- ASCII uppercase of a string, modelling Rust str::to_uppercase on the ASCII
schemes and hosts this module serializes. -/
def upperAscii (l : List Char) : List Char :=
  l.map Char.toUpper

/-- Method serialize_params of impl SerializeParams for &PayjoinExtras in
mod.rs: push ("pjos", "0") only when output substitution is Disabled, then
always push ("pj", endpoint text with the scheme and host tokens upper-cased
by two sequential first-occurrence replacements). -/
def PayjoinExtras.serialize_params (extras : PayjoinExtras) : List (String × List Char) :=
  let scheme := extras.endpoint.scheme
  let host := extras.endpoint.host
  let endpoint_str :=
    replacen1 (replacen1 extras.endpoint.as_str scheme (upperAscii scheme))
      host (upperAscii host)
  (if extras.output_substitution = .Disabled then [("pjos", "0".data)] else [])
    ++ [("pj", endpoint_str)]

/-- Method serialize_params of impl SerializeParams for &MaybePayjoinExtras in
mod.rs: Supported delegates, Unsupported emits nothing. -/
def MaybePayjoinExtras.serialize_params : MaybePayjoinExtras → List (String × List Char)
  | .Supported extras => extras.serialize_params
  | .Unsupported => []

/-- C1: finalize is a total case analysis on the accumulated (pj, pjos) pair:
with neither seen it returns Unsupported; with pjos but no pj it fails with
MissingEndpoint; with pj it succeeds with Supported (endpoint, parsed pjos or
Enabled when absent) exactly when the scheme is "https", or the scheme is
"http" and the host ends with ".onion", and fails with UnsecureEndpoint
otherwise. -/
theorem finalize_total_case_analysis (st : DeserializationState) :
    (st.pj = none → st.pjos = none → st.finalize = .ok .Unsupported) ∧
    (st.pj = none → st.pjos ≠ none → st.finalize = .error .MissingEndpoint) ∧
    (∀ e, st.pj = some e →
      (st.finalize = .ok (.Supported ⟨e, st.pjos.getD .Enabled⟩) ↔
        (e.scheme = "https".data ∨
          (e.scheme = "http".data ∧ ".onion".data.isSuffixOf (e.domain.getD []) = true))) ∧
      (¬(e.scheme = "https".data ∨
          (e.scheme = "http".data ∧ ".onion".data.isSuffixOf (e.domain.getD []) = true)) →
        st.finalize = .error .UnsecureEndpoint)) := by
  obtain ⟨pj, pjos⟩ := st
  refine ⟨?_, ?_, ?_⟩
  · intro h1 h2
    simp only at h1 h2
    subst h1; subst h2
    rfl
  · intro h1 h2
    simp only at h1 h2
    subst h1
    cases pjos with
    | none => exact absurd rfl h2
    | some p => rfl
  · intro e he
    simp only at he
    subst he
    have hfin : DeserializationState.finalize ⟨some e, pjos⟩ =
        if e.scheme = "https".data
            ∨ (e.scheme = "http".data
                ∧ ".onion".data.isSuffixOf (e.domain.getD []) = true) then
          .ok (.Supported ⟨e, pjos.getD .Enabled⟩)
        else .error .UnsecureEndpoint := rfl
    by_cases hc : (e.scheme = "https".data ∨
        (e.scheme = "http".data ∧ ".onion".data.isSuffixOf (e.domain.getD []) = true))
    · rw [hfin, if_pos hc]
      exact ⟨iff_of_true rfl hc, fun hn => absurd hc hn⟩
    · rw [hfin, if_neg hc]
      exact ⟨iff_of_false (by simp) hc, fun _ => rfl⟩

/-- Witness for C1: the empty state finalizes to Unsupported. -/
theorem finalize_total_case_analysis_witness :
    DeserializationState.finalize {} = .ok .Unsupported :=
  (finalize_total_case_analysis {}).1 rfl rfl

/-- The serialized pj value of an endpoint: its textual form with the first
occurrence of the scheme and then the first occurrence of the host replaced
by their uppercase forms. -/
def upperEndpointText (u : Url) : List Char :=
  replacen1 (replacen1 u.as_str u.scheme (upperAscii u.scheme)) u.host (upperAscii u.host)

/-- C3: serialization emits nothing for Unsupported; for Supported it emits
("pjos","0") exactly when the policy is Disabled and never emits any other
pjos value, and always emits ("pj", text) where text is the endpoint's textual
form with its scheme and host substrings upper-cased at their first
occurrences, and no other pj value. -/
theorem serialize_params_shape :
    MaybePayjoinExtras.serialize_params .Unsupported = [] ∧
    ∀ extras : PayjoinExtras,
      ((("pjos", "0".data) ∈ (MaybePayjoinExtras.Supported extras).serialize_params) ↔
        extras.output_substitution = .Disabled) ∧
      (∀ v, ("pjos", v) ∈ (MaybePayjoinExtras.Supported extras).serialize_params →
        v = "0".data) ∧
      (("pj", upperEndpointText extras.endpoint) ∈
        (MaybePayjoinExtras.Supported extras).serialize_params) ∧
      (∀ v, ("pj", v) ∈ (MaybePayjoinExtras.Supported extras).serialize_params →
        v = upperEndpointText extras.endpoint) := by
  refine ⟨rfl, fun extras => ?_⟩
  obtain ⟨ep, os⟩ := extras
  cases os <;>
    simp [MaybePayjoinExtras.serialize_params, PayjoinExtras.serialize_params,
      upperEndpointText]

/-- Witness for C3: a Disabled-policy value serializes with the pjos marker. -/
theorem serialize_params_shape_witness :
    ("pjos", "0".data) ∈
      (MaybePayjoinExtras.Supported
        ⟨⟨"https".data, "example.com".data, "/".data, none, none⟩, .Disabled⟩).serialize_params :=
  ((serialize_params_shape.2
    ⟨⟨"https".data, "example.com".data, "/".data, none, none⟩, .Disabled⟩).1).mpr rfl

/-- One accepted step never unsets pj or pjos, and an accepted pj or pjos step
sets the corresponding field. -/
theorem deserialize_temp_sets (urlParse : List Char → Option Url)
    (st st' : DeserializationState) (k : String) (v : Param) (pk : ParamKind)
    (h : st.deserialize_temp urlParse k v = .ok (st', pk)) :
    ((st.pj ≠ none ∨ k = "pj") → st'.pj ≠ none) ∧
    ((st.pjos ≠ none ∨ k = "pjos") → st'.pjos ≠ none) := by
  by_cases hk : k = "pj"
  · subst hk
    unfold DeserializationState.deserialize_temp at h
    rw [if_pos rfl] at h
    by_cases hpj : st.pj = none
    · rw [if_pos hpj] at h
      match v with
      | none => exact absurd h (by simp)
      | some s =>
        simp only at h
        cases hpw : parse_with_fragment urlParse s with
        | error e => rw [hpw] at h; exact absurd h (by simp)
        | ok url =>
          rw [hpw] at h
          simp only [Except.ok.injEq, Prod.mk.injEq] at h
          obtain ⟨h1, _⟩ := h
          subst h1
          refine ⟨fun _ => by simp, fun hp => ?_⟩
          rcases hp with hp | hp
          · simpa using hp
          · exact absurd hp (by simp)
    · rw [if_neg hpj] at h
      exact absurd h (by simp)
  · unfold DeserializationState.deserialize_temp at h
    rw [if_neg hk] at h
    by_cases hk2 : k = "pjos"
    · rw [if_pos hk2] at h
      by_cases hpjos : st.pjos = none
      · rw [if_pos hpjos] at h
        match v with
        | none => exact absurd h (by simp)
        | some s =>
          simp only at h
          by_cases h0 : s = "0".data
          · rw [if_pos h0] at h
            simp only [Except.ok.injEq, Prod.mk.injEq] at h
            obtain ⟨h1, _⟩ := h
            subst h1
            exact ⟨fun hp => by simpa using hp.resolve_right hk, fun _ => by simp⟩
          · rw [if_neg h0] at h
            by_cases h1 : s = "1".data
            · rw [if_pos h1] at h
              simp only [Except.ok.injEq, Prod.mk.injEq] at h
              obtain ⟨h2, _⟩ := h
              subst h2
              exact ⟨fun hp => by simpa using hp.resolve_right (fun hc => hk hc), fun _ => by simp⟩
            · rw [if_neg h1] at h
              exact absurd h (by simp)
      · rw [if_neg hpjos] at h
        exact absurd h (by simp)
    · rw [if_neg hk2] at h
      simp only [Except.ok.injEq, Prod.mk.injEq] at h
      obtain ⟨h1, _⟩ := h
      subst h1
      exact ⟨fun hp => hp.resolve_right hk, fun hp => hp.resolve_right hk2⟩

/-- Splitting a fold of deserialize steps at a list append. -/
theorem runSteps_append (urlParse : List Char → Option Url)
    (st : DeserializationState) (l1 l2 : List (String × Param)) :
    runSteps urlParse st (l1 ++ l2) =
      match runSteps urlParse st l1 with
      | .error e => .error e
      | .ok st' => runSteps urlParse st' l2 := by
  induction l1 generalizing st with
  | nil => rfl
  | cons p rest ih =>
    obtain ⟨k, v⟩ := p
    rw [List.cons_append, runSteps, runSteps]
    cases st.deserialize_temp urlParse k v with
    | error e => rfl
    | ok r => exact ih r.1

/-- A successful fold that saw the key "pj" leaves pj set, likewise for
"pjos". -/
theorem runSteps_key_sets (urlParse : List Char → Option Url)
    (l : List (String × Param)) (st st' : DeserializationState)
    (h : runSteps urlParse st l = .ok st') :
    ((st.pj ≠ none ∨ "pj" ∈ l.map Prod.fst) → st'.pj ≠ none) ∧
    ((st.pjos ≠ none ∨ "pjos" ∈ l.map Prod.fst) → st'.pjos ≠ none) := by
  induction l generalizing st with
  | nil =>
    rw [runSteps] at h
    simp only [Except.ok.injEq] at h
    subst h
    constructor <;> (intro hp; simpa using hp)
  | cons p rest ih =>
    obtain ⟨k, v⟩ := p
    rw [runSteps] at h
    cases hstep : st.deserialize_temp urlParse k v with
    | error e => rw [hstep] at h; exact absurd h (by simp)
    | ok r =>
      rw [hstep] at h
      simp only at h
      obtain ⟨hsets1, hsets2⟩ :=
        deserialize_temp_sets urlParse st r.1 k v r.2 (by rw [hstep])
      obtain ⟨ih1, ih2⟩ := ih r.1 h
      constructor
      · intro hp
        rcases hp with hp | hp
        · exact ih1 (Or.inl (hsets1 (Or.inl hp)))
        · simp only [List.map_cons, List.mem_cons] at hp
          rcases hp with hp | hp
          · exact ih1 (Or.inl (hsets1 (Or.inr hp.symm)))
          · exact ih1 (Or.inr hp)
      · intro hp
        rcases hp with hp | hp
        · exact ih2 (Or.inl (hsets2 (Or.inl hp)))
        · simp only [List.map_cons, List.mem_cons] at hp
          rcases hp with hp | hp
          · exact ih2 (Or.inl (hsets2 (Or.inr hp.symm)))
          · exact ih2 (Or.inr hp)

/-- C8: a repeated pj key fails the step with DuplicateParams "pj" and a
repeated pjos key with DuplicateParams "pjos", independently of the repeated
values; at the list level, a query list whose successfully parsed prefix
already contained the key fails as a whole with the same error; any other key
is classified unknown and leaves the state unchanged. -/
theorem duplicate_params_rejected :
    (∀ (urlParse : List Char → Option Url) (st : DeserializationState) (v : Param),
      st.pj ≠ none →
      st.deserialize_temp urlParse "pj" v = .error (.DuplicateParams "pj")) ∧
    (∀ (urlParse : List Char → Option Url) (st : DeserializationState) (v : Param),
      st.pjos ≠ none →
      st.deserialize_temp urlParse "pjos" v = .error (.DuplicateParams "pjos")) ∧
    (∀ (urlParse : List Char → Option Url) (st : DeserializationState)
      (key : String) (v : Param), key ≠ "pj" → key ≠ "pjos" →
      st.deserialize_temp urlParse key v = .ok (st, .Unknown)) ∧
    (∀ (urlParse : List Char → Option Url) (pre : List (String × Param))
      (st : DeserializationState) (v : Param) (rest : List (String × Param)),
      runSteps urlParse {} pre = .ok st → "pj" ∈ pre.map Prod.fst →
      runSteps urlParse {} (pre ++ ("pj", v) :: rest) =
        .error (.DuplicateParams "pj")) ∧
    (∀ (urlParse : List Char → Option Url) (pre : List (String × Param))
      (st : DeserializationState) (v : Param) (rest : List (String × Param)),
      runSteps urlParse {} pre = .ok st → "pjos" ∈ pre.map Prod.fst →
      runSteps urlParse {} (pre ++ ("pjos", v) :: rest) =
        .error (.DuplicateParams "pjos")) := by
  have step_pj : ∀ (urlParse : List Char → Option Url) (st : DeserializationState)
      (v : Param), st.pj ≠ none →
      st.deserialize_temp urlParse "pj" v = .error (.DuplicateParams "pj") := by
    intro urlParse st v hpj
    unfold DeserializationState.deserialize_temp
    rw [if_pos rfl, if_neg hpj]
  have step_pjos : ∀ (urlParse : List Char → Option Url) (st : DeserializationState)
      (v : Param), st.pjos ≠ none →
      st.deserialize_temp urlParse "pjos" v = .error (.DuplicateParams "pjos") := by
    intro urlParse st v hpjos
    unfold DeserializationState.deserialize_temp
    rw [if_neg (by decide), if_pos rfl, if_neg hpjos]
  refine ⟨step_pj, step_pjos, ?_, ?_, ?_⟩
  · intro urlParse st key v h1 h2
    unfold DeserializationState.deserialize_temp
    rw [if_neg h1, if_neg h2]
  · intro urlParse pre st v rest hpre hmem
    have hset := (runSteps_key_sets urlParse pre {} st hpre).1 (Or.inr hmem)
    rw [runSteps_append, hpre]
    show runSteps urlParse st (("pj", v) :: rest) = .error (.DuplicateParams "pj")
    rw [runSteps, step_pj urlParse st v hset]
  · intro urlParse pre st v rest hpre hmem
    have hset := (runSteps_key_sets urlParse pre {} st hpre).2 (Or.inr hmem)
    rw [runSteps_append, hpre]
    show runSteps urlParse st (("pjos", v) :: rest) = .error (.DuplicateParams "pjos")
    rw [runSteps, step_pjos urlParse st v hset]

/-- Witness for C8: two pjos occurrences fail with DuplicateParams "pjos". -/
theorem duplicate_params_rejected_witness :
    runSteps (fun _ => none) {}
      ([("pjos", some "1".data)] ++ ("pjos", some "1".data) :: []) =
      .error (.DuplicateParams "pjos") :=
  duplicate_params_rejected.2.2.2.2 (fun _ => none) [("pjos", some "1".data)]
    ⟨none, some .Enabled⟩ (some "1".data) [] rfl (by decide)

/-- C9: a pjos value that is not valid UTF-8 is rejected with BadPjOs, and the
NotUtf8 error can only ever arise from the pj parameter. -/
theorem pjos_not_utf8_is_bad_pjos :
    (∀ (urlParse : List Char → Option Url) (st : DeserializationState),
      st.pjos = none →
      st.deserialize_temp urlParse "pjos" none = .error .BadPjOs) ∧
    (∀ (urlParse : List Char → Option Url) (st : DeserializationState)
      (k : String) (v : Param),
      st.deserialize_temp urlParse k v = .error .NotUtf8 → k = "pj") := by
  constructor
  · intro urlParse st hpjos
    unfold DeserializationState.deserialize_temp
    rw [if_neg (by decide), if_pos rfl, if_pos hpjos]
  · intro urlParse st k v h
    by_cases hk : k = "pj"
    · exact hk
    · exfalso
      unfold DeserializationState.deserialize_temp at h
      rw [if_neg hk] at h
      by_cases hk2 : k = "pjos"
      · rw [if_pos hk2] at h
        by_cases hpjos : st.pjos = none
        · rw [if_pos hpjos] at h
          match v with
          | none => exact absurd h (by simp)
          | some s =>
            simp only at h
            by_cases h0 : s = "0".data
            · rw [if_pos h0] at h; exact absurd h (by simp)
            · rw [if_neg h0] at h
              by_cases h1 : s = "1".data
              · rw [if_pos h1] at h; exact absurd h (by simp)
              · rw [if_neg h1] at h; exact absurd h (by simp)
        · rw [if_neg hpjos] at h
          exact absurd h (by simp)
      · rw [if_neg hk2] at h
        exact absurd h (by simp)

/-- Witness for C9: an invalid UTF-8 pjos value fails with BadPjOs. -/
theorem pjos_not_utf8_is_bad_pjos_witness :
    DeserializationState.deserialize_temp (fun _ => none) {} "pjos" none =
      .error .BadPjOs :=
  pjos_not_utf8_is_bad_pjos.1 (fun _ => none) {} rfl

/-- Fragment-structure error (enum ParseFragmentError in url_ext.rs). -/
inductive ParseFragmentError
  | InvalidChar (c : Char)
  | AmbiguousDelimiter
deriving DecidableEq, Repr

/-- Character admissibility checked by check_fragment_delimiter: the byte
ranges 0-9 and A-Z plus '-' and '+' (fragment characters are ASCII, where
bytes and characters coincide). -/
def validFragChar (c : Char) : Bool :=
  decide (('0' ≤ c ∧ c ≤ '9') ∨ ('A' ≤ c ∧ c ≤ 'Z') ∨ c = '-' ∨ c = '+')

/-- Function check_fragment_delimiter in url_ext.rs: reject the first
character outside the admissible set, then reject co-occurring '-' and '+',
then choose '+' only when it occurs alone (legacy) and '-' otherwise. -/
def check_fragment_delimiter (fragment : List Char) : Except ParseFragmentError Char :=
  let has_dash := fragment.contains '-'
  let has_plus := fragment.contains '+'
  match fragment.find? (fun c => !validFragChar c) with
  | some c => .error (.InvalidChar c)
  | none =>
    match has_dash, has_plus with
    | true, true => .error .AmbiguousDelimiter
    | false, true => .ok '+'
    | _, _ => .ok '-'

/-- Function get_param in url_ext.rs: determine the delimiter, split the
fragment on it and return the first token starting with the prefix pfx;
absence of a fragment or of a matching token is Ok none. -/
def get_param (url : Url) (pfx : List Char) :
    Except ParseFragmentError (Option (List Char)) :=
  match url.fragment with
  | some fragment =>
    match check_fragment_delimiter fragment with
    | .error e => .error e
    | .ok delim =>
      .ok ((fragment.splitOn delim).find? (fun param => pfx.isPrefixOf param))
  | none => .ok none

/-- Key of a fragment token, Rust param.split('1').next().unwrap_or(param):
the characters before the first '1', or the whole token without one. -/
def tokenKey (p : List Char) : List Char :=
  p.takeWhile (fun c => c != '1')

/-- Byte-wise lexicographic order on strings, the Ord used by the Rust
BTreeMap with string keys. -/
def lexLt : List Char → List Char → Bool
  | [], [] => false
  | [], _ :: _ => true
  | _ :: _, [] => false
  | a :: as, b :: bs => if a < b then true else if b < a then false else lexLt as bs

/-- Ordered-map insert, modelling BTreeMap::insert on an association list
sorted ascending by key: an equal key is overwritten in place. -/
def mapInsert (m : List (List Char × List Char)) (k v : List Char) :
    List (List Char × List Char) :=
  match m with
  | [] => [(k, v)]
  | (k', v') :: rest =>
    if lexLt k k' then (k, v) :: (k', v') :: rest
    else if k = k' then (k, v) :: rest
    else (k', v') :: mapInsert rest k v

/-- Nonempty tokens of a fragment under a delimiter, the filtered split
performed by set_param. -/
def fragToks (fragment : List Char) (delim : Char) : List (List Char) :=
  (fragment.splitOn delim).filter (fun p => !p.isEmpty)

/-- The key-to-token map set_param collects from an existing fragment; a later
token with an equal key overwrites an earlier one, as BTreeMap collect does. -/
def fragMap (fragment : List Char) (delim : Char) : List (List Char × List Char) :=
  (fragToks fragment delim).foldl (fun m p => mapInsert m (tokenKey p) p) []

/-- Rust slice join with the "-" separator: the parts in order with one '-'
between consecutive parts. -/
def joinDash : List (List Char) → List Char
  | [] => []
  | [v] => v
  | v :: w :: rest => v ++ '-' :: joinDash (w :: rest)

/-- Fragment text rendered from a key-sorted map: the values in ascending key
order joined with '-'. -/
def renderToks (m : List (List Char × List Char)) : List Char :=
  joinDash (m.map Prod.snd)

/-- Function set_param in url_ext.rs: parse the current fragment (empty when
absent) into a key-to-token map, insert the new token under its key, and
write back the values sorted ascending by key joined with '-'; an error of
the delimiter check models the Rust expect panic. -/
def set_param (url : Url) (new_param : List Char) : Except ParseFragmentError Url :=
  let fragment := url.fragment.getD []
  match check_fragment_delimiter fragment with
  | .error e => .error e
  | .ok delim =>
    let params := mapInsert (fragMap fragment delim) (tokenKey new_param) new_param
    if params.isEmpty then .ok { url with fragment := none }
    else .ok { url with fragment := some (renderToks params) }

/-- Modelled from the spec: character set of the checksum-less base32 codec
(crate::bech32::nochecksum is not among the given sources), the bech32
alphabet in the uppercase form this module emits. -/
def bech32Charset : List Char :=
  "QPZRY9X8GF2TVDW0S3JN54KHCE6MUA7L".data

/-- Bits of one byte, most significant first. -/
def byteBits (b : Nat) : List Bool :=
  [b.testBit 7, b.testBit 6, b.testBit 5, b.testBit 4,
   b.testBit 3, b.testBit 2, b.testBit 1, b.testBit 0]

/-- Value of a bit string, most significant first. -/
def bitsVal (l : List Bool) : Nat :=
  l.foldl (fun a b => 2 * a + (if b then 1 else 0)) 0

/-- Regroup a bit string into 5-bit values, zero-padding the final group. -/
def chunk5 : List Bool → List Nat
  | [] => []
  | [b0] => [bitsVal [b0, false, false, false, false]]
  | [b0, b1] => [bitsVal [b0, b1, false, false, false]]
  | [b0, b1, b2] => [bitsVal [b0, b1, b2, false, false]]
  | [b0, b1, b2, b3] => [bitsVal [b0, b1, b2, b3, false]]
  | b0 :: b1 :: b2 :: b3 :: b4 :: rest => bitsVal [b0, b1, b2, b3, b4] :: chunk5 rest

/-- Regroup a bit string into full bytes, dropping trailing padding bits. -/
def chunk8 : List Bool → List Nat
  | b0 :: b1 :: b2 :: b3 :: b4 :: b5 :: b6 :: b7 :: rest =>
    bitsVal [b0, b1, b2, b3, b4, b5, b6, b7] :: chunk8 rest
  | _ => []

/-- Modelled from the spec: the checksum-less base32 encode of the external
contract encode(tag, bytes) to text (crate::bech32::nochecksum is not among
the given sources): the tag, the separator '1', then the bytes regrouped into
5-bit values through the base32 charset. Validated below against the spec's
example vector for tag "EX". -/
def nochecksumEncode (hrp : List Char) (bytes : List Nat) : List Char :=
  hrp ++ '1' :: (chunk5 (bytes.map byteBits).flatten).map (fun v => bech32Charset.getD v ' ')

/-- Modelled from the spec: the checksum-less base32 decode of the external
contract decode(text) to (tag, bytes): split at the rightmost '1' separator
(no separator or an empty tag fails), map payload characters through the
base32 charset (a character outside it fails), and regroup the 5-bit values
into full bytes. -/
def nochecksumDecode (s : List Char) : Option (List Char × List Nat) :=
  let parts := s.splitOn '1'
  if 2 ≤ parts.length then
    let hrp := List.intercalate ['1'] parts.dropLast
    let payload := parts.getLastD []
    if hrp = [] then none
    else
      match payload.mapM (fun c => bech32Charset.indexOf? c) with
      | none => none
      | some vals =>
        some (hrp, chunk8 (vals.map (fun v =>
          [v.testBit 4, v.testBit 3, v.testBit 2, v.testBit 1, v.testBit 0])).flatten)
  else none

/-- Little-endian byte serialization of a 32-bit value, the bitcoin consensus
encoding of u32 used for the expiry payload. -/
def u32LEBytes (t : Nat) : List Nat :=
  [t % 256, t / 256 % 256, t / 65536 % 256, t / 16777216 % 256]

/-- Modelled from the spec: a receiver public key is opaque beyond its byte
encoding (crate::hpke is not among the given sources); to_compressed_bytes is
its compressed byte serialization. -/
structure HpkePublicKey where
  bytes : List Nat
deriving DecidableEq, Repr

/-- Modelled from the spec: from_compressed_bytes validates and rebuilds a key
from compressed bytes, failing on malformed or invalid bytes; the model
accepts exactly the 33-byte strings a compressed key serializes to. -/
def HpkePublicKey.from_compressed_bytes (bytes : List Nat) : Option HpkePublicKey :=
  if bytes.length = 33 then some ⟨bytes⟩ else none

/-- Modelled from the spec: relay key configuration is opaque
externally-encoded text (crate::ohttp is not among the given sources). -/
structure OhttpKeys where
  text : List Char
deriving DecidableEq, Repr

/-- Modelled from the spec: OhttpKeys::to_string, the external serialization
of a relay key configuration to its fragment token text. -/
def OhttpKeys.to_string (k : OhttpKeys) : List Char :=
  k.text

/-- Modelled from the spec: OhttpKeys::from_str, the external text codec;
which texts it rejects is external to this module, so the model stores the
text. -/
def OhttpKeys.from_str (s : List Char) : Option OhttpKeys :=
  some ⟨s⟩

/-- Error family of the receiver-pubkey accessor (url_ext.rs); payloads of
the external error values are abstracted away. -/
inductive ParseReceiverPubkeyParamError
  | MissingPubkey
  | InvalidHrp (hrp : List Char)
  | DecodeBech32
  | InvalidPubkey
  | InvalidFragment (e : ParseFragmentError)
deriving DecidableEq, Repr

/-- Error family of the ohttp accessor (url_ext.rs). -/
inductive ParseOhttpKeysParamError
  | MissingOhttpKeys
  | InvalidOhttpKeys
  | InvalidFragment (e : ParseFragmentError)
deriving DecidableEq, Repr

/-- Error family of the expiry accessor (url_ext.rs). -/
inductive ParseExpParamError
  | MissingExp
  | InvalidHrp (hrp : List Char)
  | DecodeBech32
  | InvalidExp
  | InvalidFragment (e : ParseFragmentError)
deriving DecidableEq, Repr

/-- Method UrlExt::receiver_pubkey in url_ext.rs: token under prefix "RK1",
base32-decoded, tag checked, then key bytes validated. -/
def Url.receiver_pubkey (url : Url) :
    Except ParseReceiverPubkeyParamError HpkePublicKey :=
  match get_param url "RK1".data with
  | .error e => .error (.InvalidFragment e)
  | .ok none => .error .MissingPubkey
  | .ok (some value) =>
    match nochecksumDecode value with
    | none => .error .DecodeBech32
    | some (hrp, bytes) =>
      if hrp = "RK".data then
        match HpkePublicKey.from_compressed_bytes bytes with
        | some pk => .ok pk
        | none => .error .InvalidPubkey
      else .error (.InvalidHrp hrp)

/-- Method UrlExt::set_receiver_pubkey in url_ext.rs; the Rust method mutates
the url and panics through set_param's expect, modelled as the error case. -/
def Url.set_receiver_pubkey (url : Url) (pubkey : HpkePublicKey) :
    Except ParseFragmentError Url :=
  set_param url (nochecksumEncode "RK".data pubkey.bytes)

/-- Method UrlExt::ohttp in url_ext.rs: token under prefix "OH1", whole value
after the prefix handed to the external text codec. -/
def Url.ohttp (url : Url) : Except ParseOhttpKeysParamError OhttpKeys :=
  match get_param url "OH1".data with
  | .error e => .error (.InvalidFragment e)
  | .ok none => .error .MissingOhttpKeys
  | .ok (some value) =>
    match OhttpKeys.from_str value with
    | some k => .ok k
    | none => .error .InvalidOhttpKeys

/-- Method UrlExt::set_ohttp in url_ext.rs. -/
def Url.set_ohttp (url : Url) (keys : OhttpKeys) : Except ParseFragmentError Url :=
  set_param url keys.to_string

/-- Method UrlExt::exp in url_ext.rs: token under prefix "EX1",
base32-decoded, tag checked, then a consensus-encoded u32 read from the
bytes; the resulting SystemTime is modelled as seconds since the epoch. -/
def Url.exp (url : Url) : Except ParseExpParamError Int :=
  match get_param url "EX1".data with
  | .error e => .error (.InvalidFragment e)
  | .ok none => .error .MissingExp
  | .ok (some value) =>
    match nochecksumDecode value with
    | none => .error .DecodeBech32
    | some (hrp, bytes) =>
      if hrp = "EX".data then
        match bytes with
        | b0 :: b1 :: b2 :: b3 :: _ =>
          .ok (Int.ofNat (b0 + 256 * b1 + 65536 * b2 + 16777216 * b3))
        | _ => .error .InvalidExp
      else .error (.InvalidHrp hrp)

/-- Method UrlExt::set_exp in url_ext.rs. SystemTime is modelled as whole
seconds since the Unix epoch (negative before it). duration_since errs for
times before the epoch, which the code saturates to 0; the u32 try_into
unwrap panics for 2^32 seconds or more, modelled as none, as is the expect
on set_param's delimiter check. -/
def Url.set_exp (url : Url) (exp : Int) : Option Url :=
  match (if 0 ≤ exp then (if exp < 4294967296 then some exp.toNat else none)
         else some 0) with
  | none => none
  | some t =>
    match set_param url (nochecksumEncode "EX".data (u32LEBytes t)) with
    | .error _ => none
    | .ok u => some u

/-- The spec's example vector: epoch seconds 1720547781 encode under tag "EX"
to the token text EX1C4UC6ES, validating the spec-modelled base32 codec. -/
theorem exp_token_vector :
    nochecksumEncode "EX".data (u32LEBytes 1720547781) = "EX1C4UC6ES".data ∧
    nochecksumDecode "EX1C4UC6ES".data = some ("EX".data, u32LEBytes 1720547781) := by
  decide

/-- C4: determining the delimiter fails with InvalidChar when some character
lies outside 0-9, A-Z, '-', '+' (taking precedence over ambiguity); otherwise
it fails with AmbiguousDelimiter when '-' and '+' co-occur; otherwise it
returns '+' when '+' occurs alone; otherwise, with no '+' at all (only '-',
no delimiter, or the empty fragment), it returns '-'. -/
theorem check_fragment_delimiter_cases (f : List Char) :
    ((∃ c ∈ f, validFragChar c = false) →
      ∃ c, check_fragment_delimiter f = .error (.InvalidChar c)) ∧
    ((∀ c ∈ f, validFragChar c = true) →
      (('-' ∈ f ∧ '+' ∈ f) → check_fragment_delimiter f = .error .AmbiguousDelimiter) ∧
      (('+' ∈ f ∧ '-' ∉ f) → check_fragment_delimiter f = .ok '+') ∧
      ('+' ∉ f → check_fragment_delimiter f = .ok '-')) := by
  constructor
  · rintro ⟨c, hc, hbad⟩
    have hsome : (f.find? (fun c => !validFragChar c)).isSome :=
      List.find?_isSome.mpr ⟨c, hc, by simp [hbad]⟩
    obtain ⟨c', hc'⟩ := Option.isSome_iff_exists.mp hsome
    exact ⟨c', by simp [check_fragment_delimiter, hc']⟩
  · intro hall
    have hfind : f.find? (fun c => !validFragChar c) = none :=
      List.find?_eq_none.mpr (fun x hx => by simp [hall x hx])
    refine ⟨?_, ?_, ?_⟩
    · rintro ⟨hdash, hplus⟩
      simp [check_fragment_delimiter, hfind, hdash, hplus]
    · rintro ⟨hplus, hdash⟩
      simp [check_fragment_delimiter, hfind, hdash, hplus]
    · intro hplus
      by_cases hdash : '-' ∈ f <;>
        simp [check_fragment_delimiter, hfind, hdash, hplus]

/-- Witness for C4: a fragment holding both delimiters but only admissible
characters is ambiguous. -/
theorem check_fragment_delimiter_cases_witness :
    check_fragment_delimiter "A-B+C".data = .error .AmbiguousDelimiter :=
  ((check_fragment_delimiter_cases "A-B+C".data).2 (by decide)).1 (by decide)

theorem lexLt_irrefl (a : List Char) : lexLt a a = false := by
  induction a with
  | nil => rfl
  | cons c cs ih => simp [lexLt, ih]

theorem lexLt_asymm : ∀ {a b : List Char}, lexLt a b = true → lexLt b a = false := by
  intro a
  induction a with
  | nil =>
    intro b h
    cases b with
    | nil => exact absurd h (by simp [lexLt])
    | cons d ds => simp [lexLt]
  | cons c cs ih =>
    intro b h
    cases b with
    | nil => exact absurd h (by simp [lexLt])
    | cons d ds =>
      simp only [lexLt] at h ⊢
      by_cases h1 : c < d
      · simp [h1, lt_asymm h1]
      · by_cases h2 : d < c
        · simp [h1, h2] at h
        · simp only [h1, h2, if_false] at h ⊢
          simpa using ih (by simpa using h)

theorem lexLt_eq_of_not_lt :
    ∀ {a b : List Char}, lexLt a b = false → lexLt b a = false → a = b := by
  intro a
  induction a with
  | nil =>
    intro b h1 h2
    cases b with
    | nil => rfl
    | cons d ds => exact absurd h1 (by simp [lexLt])
  | cons c cs ih =>
    intro b h1 h2
    cases b with
    | nil => exact absurd h2 (by simp [lexLt])
    | cons d ds =>
      simp only [lexLt] at h1 h2
      by_cases hcd : c < d
      · simp [hcd] at h1
      · by_cases hdc : d < c
        · simp [hcd, hdc] at h2
        · have hc : c = d := le_antisymm (not_lt.mp hdc) (not_lt.mp hcd)
          subst hc
          simp only [hcd, if_false] at h1 h2
          rw [ih (by simpa using h1) (by simpa using h2)]

theorem lexLt_trans :
    ∀ {a b c : List Char}, lexLt a b = true → lexLt b c = true → lexLt a c = true := by
  intro a
  induction a with
  | nil =>
    intro b c h1 h2
    cases b with
    | nil => exact absurd h1 (by simp [lexLt])
    | cons d ds =>
      cases c with
      | nil => exact absurd h2 (by simp [lexLt])
      | cons e es => simp [lexLt]
  | cons x xs ih =>
    intro b c h1 h2
    cases b with
    | nil => exact absurd h1 (by simp [lexLt])
    | cons y ys =>
      cases c with
      | nil => exact absurd h2 (by simp [lexLt])
      | cons z zs =>
        simp only [lexLt] at h1 h2 ⊢
        by_cases hxy : x < y
        · by_cases hyz : y < z
          · simp [lt_trans hxy hyz]
          · by_cases hzy : z < y
            · simp [hyz, hzy] at h2
            · have : y = z := le_antisymm (not_lt.mp hzy) (not_lt.mp hyz)
              subst this
              simp [hxy]
        · by_cases hyx : y < x
          · simp [hxy, hyx] at h1
          · have hxyeq : x = y := le_antisymm (not_lt.mp hyx) (not_lt.mp hxy)
            subst hxyeq
            simp only [hxy, if_false] at h1 ⊢
            by_cases hyz : x < z
            · simp [hyz]
            · by_cases hzy : z < x
              · simp [hyz, hzy] at h2
              · simp only [hyz, hzy, if_false] at h2 ⊢
                exact ih (by simpa using h1) (by simpa using h2)

theorem lexLt_total_of_ne {a b : List Char} (h : lexLt a b = false) (hne : a ≠ b) :
    lexLt b a = true := by
  by_cases hba : lexLt b a = true
  · exact hba
  · exact absurd (lexLt_eq_of_not_lt h (by simpa using hba)) hne

/-- Key order between map entries: the relation the sorted association list
maintains, mirroring the BTreeMap key order. -/
def keyLt (a b : List Char × List Char) : Prop :=
  lexLt a.1 b.1 = true

theorem mapInsert_cons_lt {k k' : List Char} (v v' : List Char)
    (rest : List (List Char × List Char)) (h : lexLt k k' = true) :
    mapInsert ((k', v') :: rest) k v = (k, v) :: (k', v') :: rest := by
  simp [mapInsert, h]

theorem mapInsert_cons_eq {k k' : List Char} (v v' : List Char)
    (rest : List (List Char × List Char)) (h1 : lexLt k k' = false) (h2 : k = k') :
    mapInsert ((k', v') :: rest) k v = (k, v) :: rest := by
  subst h2
  simp [mapInsert, h1]

theorem mapInsert_cons_gt {k k' : List Char} (v v' : List Char)
    (rest : List (List Char × List Char)) (h1 : lexLt k k' = false) (h2 : k ≠ k') :
    mapInsert ((k', v') :: rest) k v = (k', v') :: mapInsert rest k v := by
  simp [mapInsert, h1, h2]

theorem mapInsert_ne_nil (m : List (List Char × List Char)) (k v : List Char) :
    mapInsert m k v ≠ [] := by
  cases m with
  | nil => simp [mapInsert]
  | cons p rest =>
    obtain ⟨k', v'⟩ := p
    cases h1 : lexLt k k' with
    | true => rw [mapInsert_cons_lt v v' rest h1]; simp
    | false =>
      by_cases h2 : k = k'
      · rw [mapInsert_cons_eq v v' rest h1 h2]; simp
      · rw [mapInsert_cons_gt v v' rest h1 h2]; simp

theorem mem_mapInsert (m : List (List Char × List Char)) (k v : List Char) :
    ∀ p ∈ mapInsert m k v, p = (k, v) ∨ p ∈ m := by
  induction m with
  | nil =>
    intro p hp
    simp only [mapInsert, List.mem_singleton] at hp
    exact Or.inl hp
  | cons q rest ih =>
    obtain ⟨k', v'⟩ := q
    intro p hp
    cases h1 : lexLt k k' with
    | true =>
      rw [mapInsert_cons_lt v v' rest h1] at hp
      rcases List.mem_cons.mp hp with hp | hp
      · exact Or.inl hp
      · exact Or.inr hp
    | false =>
      by_cases h2 : k = k'
      · rw [mapInsert_cons_eq v v' rest h1 h2] at hp
        rcases List.mem_cons.mp hp with hp | hp
        · exact Or.inl hp
        · exact Or.inr (List.mem_cons_of_mem _ hp)
      · rw [mapInsert_cons_gt v v' rest h1 h2] at hp
        rcases List.mem_cons.mp hp with hp | hp
        · exact Or.inr (hp ▸ List.mem_cons_self _ _)
        · rcases ih p hp with h | h
          · exact Or.inl h
          · exact Or.inr (List.mem_cons_of_mem _ h)

theorem mem_mapInsert_self (m : List (List Char × List Char)) (k v : List Char) :
    (k, v) ∈ mapInsert m k v := by
  induction m with
  | nil => simp [mapInsert]
  | cons q rest ih =>
    obtain ⟨k', v'⟩ := q
    cases h1 : lexLt k k' with
    | true => rw [mapInsert_cons_lt v v' rest h1]; exact List.mem_cons_self _ _
    | false =>
      by_cases h2 : k = k'
      · rw [mapInsert_cons_eq v v' rest h1 h2]; exact List.mem_cons_self _ _
      · rw [mapInsert_cons_gt v v' rest h1 h2]; exact List.mem_cons_of_mem _ ih

theorem mem_mapInsert_of_ne (m : List (List Char × List Char)) (k v : List Char)
    (p : List Char × List Char) (hp : p ∈ m) (hne : p.1 ≠ k) :
    p ∈ mapInsert m k v := by
  induction m with
  | nil => simp at hp
  | cons q rest ih =>
    obtain ⟨k', v'⟩ := q
    cases h1 : lexLt k k' with
    | true => rw [mapInsert_cons_lt v v' rest h1]; exact List.mem_cons_of_mem _ hp
    | false =>
      by_cases h2 : k = k'
      · rw [mapInsert_cons_eq v v' rest h1 h2]
        rcases List.mem_cons.mp hp with hp | hp
        · exact absurd (by rw [hp, h2]) hne
        · exact List.mem_cons_of_mem _ hp
      · rw [mapInsert_cons_gt v v' rest h1 h2]
        rcases List.mem_cons.mp hp with hp | hp
        · exact hp ▸ List.mem_cons_self _ _
        · exact List.mem_cons_of_mem _ (ih hp)

theorem mapInsert_overwrite (m : List (List Char × List Char)) (k v v' : List Char) :
    mapInsert (mapInsert m k v) k v' = mapInsert m k v' := by
  have hirr : lexLt k k = false := lexLt_irrefl k
  induction m with
  | nil =>
    show mapInsert [(k, v)] k v' = [(k, v')]
    rw [mapInsert_cons_eq v' v [] hirr rfl]
  | cons q rest ih =>
    obtain ⟨k', v''⟩ := q
    cases h1 : lexLt k k' with
    | true =>
      rw [mapInsert_cons_lt v v'' rest h1, mapInsert_cons_eq v' v _ hirr rfl,
        mapInsert_cons_lt v' v'' rest h1]
    | false =>
      by_cases h2 : k = k'
      · rw [mapInsert_cons_eq v v'' rest h1 h2, mapInsert_cons_eq v' v rest hirr rfl,
          mapInsert_cons_eq v' v'' rest h1 h2]
      · rw [mapInsert_cons_gt v v'' rest h1 h2, mapInsert_cons_gt v' v'' _ h1 h2,
          mapInsert_cons_gt v' v'' rest h1 h2, ih]

theorem mapInsert_append_gt (m : List (List Char × List Char)) (k v : List Char)
    (h : ∀ p ∈ m, lexLt p.1 k = true) :
    mapInsert m k v = m ++ [(k, v)] := by
  induction m with
  | nil => rfl
  | cons q rest ih =>
    obtain ⟨k', v'⟩ := q
    have hk' : lexLt k' k = true := h (k', v') (List.mem_cons_self _ _)
    have h1 : lexLt k k' = false := lexLt_asymm hk'
    have h2 : k ≠ k' := by
      intro hkk
      rw [hkk, lexLt_irrefl] at hk'
      exact Bool.false_ne_true hk'
    rw [mapInsert_cons_gt v v' rest h1 h2,
      ih (fun p hp => h p (List.mem_cons_of_mem _ hp))]
    rfl

theorem mapInsert_self (m : List (List Char × List Char)) (k v : List Char)
    (hs : List.Pairwise keyLt m) (hmem : (k, v) ∈ m) :
    mapInsert m k v = m := by
  induction m with
  | nil => simp at hmem
  | cons q rest ih =>
    obtain ⟨k', v'⟩ := q
    obtain ⟨hhead, hrest⟩ := List.pairwise_cons.mp hs
    rcases List.mem_cons.mp hmem with hmem | hmem
    · have hk : k = k' := congrArg Prod.fst hmem
      have hv : v = v' := congrArg Prod.snd hmem
      subst hk
      rw [mapInsert_cons_eq v v' rest (lexLt_irrefl k) rfl, hv]
    · have hk' : lexLt k' k = true := hhead (k, v) hmem
      have h1 : lexLt k k' = false := lexLt_asymm hk'
      have h2 : k ≠ k' := by
        intro hkk
        rw [hkk, lexLt_irrefl] at hk'
        exact Bool.false_ne_true hk'
      rw [mapInsert_cons_gt v v' rest h1 h2, ih hrest hmem]

theorem pairwise_mapInsert (m : List (List Char × List Char)) (k v : List Char)
    (hs : List.Pairwise keyLt m) :
    List.Pairwise keyLt (mapInsert m k v) := by
  induction m with
  | nil => simp [mapInsert]
  | cons q rest ih =>
    obtain ⟨k', v'⟩ := q
    obtain ⟨hhead, hrest⟩ := List.pairwise_cons.mp hs
    cases h1 : lexLt k k' with
    | true =>
      rw [mapInsert_cons_lt v v' rest h1]
      refine List.pairwise_cons.mpr ⟨?_, hs⟩
      intro p hp
      rcases List.mem_cons.mp hp with hp | hp
      · subst hp; exact h1
      · exact lexLt_trans h1 (hhead p hp)
    | false =>
      by_cases h2 : k = k'
      · rw [mapInsert_cons_eq v v' rest h1 h2]
        refine List.pairwise_cons.mpr ⟨?_, hrest⟩
        intro p hp
        show lexLt k p.1 = true
        rw [h2]
        exact hhead p hp
      · rw [mapInsert_cons_gt v v' rest h1 h2]
        refine List.pairwise_cons.mpr ⟨?_, ih hrest⟩
        intro p hp
        rcases mem_mapInsert rest k v p hp with hp | hp
        · subst hp
          show lexLt k' k = true
          exact lexLt_total_of_ne h1 h2
        · exact hhead p hp

theorem mapInsert_comm (m : List (List Char × List Char)) (k1 k2 v1 v2 : List Char)
    (hne : k1 ≠ k2) :
    mapInsert (mapInsert m k1 v1) k2 v2 = mapInsert (mapInsert m k2 v2) k1 v1 := by
  induction m with
  | nil =>
    show mapInsert [(k1, v1)] k2 v2 = mapInsert [(k2, v2)] k1 v1
    cases h12 : lexLt k1 k2 with
    | true =>
      have h21 : lexLt k2 k1 = false := lexLt_asymm h12
      rw [mapInsert_cons_gt v2 v1 [] h21 hne.symm,
        mapInsert_cons_lt v1 v2 [] h12]
      rfl
    | false =>
      have h21 : lexLt k2 k1 = true := lexLt_total_of_ne h12 hne
      rw [mapInsert_cons_lt v2 v1 [] h21,
        mapInsert_cons_gt v1 v2 [] h12 hne]
      rfl
  | cons q rest ih =>
    obtain ⟨k', v'⟩ := q
    cases ha1 : lexLt k1 k' with
    | true =>
      cases ha2 : lexLt k2 k' with
      | true =>
        cases h21 : lexLt k2 k1 with
        | true =>
          have h12 : lexLt k1 k2 = false := lexLt_asymm h21
          rw [mapInsert_cons_lt v1 v' rest ha1, mapInsert_cons_lt v2 v1 _ h21,
            mapInsert_cons_lt v2 v' rest ha2, mapInsert_cons_gt v1 v2 _ h12 hne,
            mapInsert_cons_lt v1 v' rest ha1]
        | false =>
          have h12 : lexLt k1 k2 = true := lexLt_total_of_ne h21 hne.symm
          rw [mapInsert_cons_lt v1 v' rest ha1, mapInsert_cons_gt v2 v1 _ h21 hne.symm,
            mapInsert_cons_lt v2 v' rest ha2, mapInsert_cons_lt v1 v2 _ h12]
      | false =>
        by_cases hb2 : k2 = k'
        · have h21 : lexLt k2 k1 = false := by
            rw [hb2]; exact lexLt_asymm ha1
          have hlt : lexLt k1 k2 = true := by rw [hb2]; exact ha1
          rw [mapInsert_cons_lt v1 v' rest ha1, mapInsert_cons_gt v2 v1 _ h21 hne.symm,
            mapInsert_cons_eq v2 v' rest ha2 hb2, mapInsert_cons_lt v1 v2 rest hlt]
        · have h21 : lexLt k2 k1 = false := by
            cases h : lexLt k2 k1 with
            | false => rfl
            | true => rw [lexLt_trans h ha1] at ha2; exact ha2
          rw [mapInsert_cons_lt v1 v' rest ha1, mapInsert_cons_gt v2 v1 _ h21 hne.symm,
            mapInsert_cons_gt v2 v' rest ha2 hb2,
            mapInsert_cons_lt v1 v' (mapInsert rest k2 v2) ha1]
    | false =>
      by_cases hb1 : k1 = k'
      · subst hb1
        cases ha2 : lexLt k2 k1 with
        | true =>
          have h12 : lexLt k1 k2 = false := lexLt_asymm ha2
          rw [mapInsert_cons_eq v1 v' rest ha1 rfl, mapInsert_cons_lt v2 v1 rest ha2,
            mapInsert_cons_lt v2 v' rest ha2, mapInsert_cons_gt v1 v2 _ h12 hne,
            mapInsert_cons_eq v1 v' rest ha1 rfl]
        | false =>
          rw [mapInsert_cons_eq v1 v' rest ha1 rfl,
            mapInsert_cons_gt v2 v1 rest ha2 hne.symm,
            mapInsert_cons_gt v2 v' rest ha2 hne.symm,
            mapInsert_cons_eq v1 v' _ ha1 rfl]
      · cases ha2 : lexLt k2 k' with
        | true =>
          have h12 : lexLt k1 k2 = false := by
            cases h : lexLt k1 k2 with
            | false => rfl
            | true => rw [lexLt_trans h ha2] at ha1; exact ha1
          rw [mapInsert_cons_gt v1 v' rest ha1 hb1,
            mapInsert_cons_lt v2 v' (mapInsert rest k1 v1) ha2,
            mapInsert_cons_lt v2 v' rest ha2, mapInsert_cons_gt v1 v2 _ h12 hne,
            mapInsert_cons_gt v1 v' rest ha1 hb1]
        | false =>
          by_cases hb2 : k2 = k'
          · subst hb2
            rw [mapInsert_cons_gt v1 v' rest ha1 hb1,
              mapInsert_cons_eq v2 v' (mapInsert rest k1 v1) ha2 rfl,
              mapInsert_cons_eq v2 v' rest ha2 rfl,
              mapInsert_cons_gt v1 v2 rest ha1 hb1]
          · rw [mapInsert_cons_gt v1 v' rest ha1 hb1,
              mapInsert_cons_gt v2 v' (mapInsert rest k1 v1) ha2 hb2,
              mapInsert_cons_gt v2 v' rest ha2 hb2,
              mapInsert_cons_gt v1 v' (mapInsert rest k2 v2) ha1 hb1, ih]

/-- Characters of the canonical token alphabet: digits and uppercase
letters, the admissible set without the two delimiter characters. -/
def digitUpper (c : Char) : Bool :=
  decide (('0' ≤ c ∧ c ≤ '9') ∨ ('A' ≤ c ∧ c ≤ 'Z'))

theorem digitUpper_valid {c : Char} (h : digitUpper c = true) : validFragChar c = true := by
  simp only [digitUpper, decide_eq_true_eq] at h
  simp only [validFragChar, decide_eq_true_eq]
  tauto

theorem digitUpper_ne_dash {c : Char} (h : digitUpper c = true) : c ≠ '-' := by
  rintro rfl
  exact absurd h (by decide)

theorem digitUpper_ne_plus {c : Char} (h : digitUpper c = true) : c ≠ '+' := by
  rintro rfl
  exact absurd h (by decide)

theorem validFragChar_cases {c : Char} (h : validFragChar c = true) :
    digitUpper c = true ∨ c = '-' ∨ c = '+' := by
  simp only [validFragChar, decide_eq_true_eq] at h
  simp only [digitUpper, decide_eq_true_eq]
  tauto

theorem check_eq_find (f : List Char) :
    check_fragment_delimiter f =
      match f.find? (fun c => !validFragChar c) with
      | some c => .error (.InvalidChar c)
      | none =>
        match f.contains '-', f.contains '+' with
        | true, true => .error .AmbiguousDelimiter
        | false, true => .ok '+'
        | _, _ => .ok '-' := rfl

theorem check_ok_all_valid {f : List Char} {d : Char}
    (h : check_fragment_delimiter f = .ok d) :
    ∀ c ∈ f, validFragChar c = true := by
  intro c hc
  cases hf : f.find? (fun c => !validFragChar c) with
  | some c' => rw [check_eq_find, hf] at h; simp at h
  | none =>
    have := List.find?_eq_none.mp hf c hc
    simpa using this

theorem check_ok_delim {f : List Char} {d : Char}
    (h : check_fragment_delimiter f = .ok d) :
    (d = '-' ∧ f.contains '+' = false) ∨ (d = '+' ∧ f.contains '-' = false) := by
  rw [check_eq_find] at h
  cases hf : f.find? (fun c => !validFragChar c) with
  | some c' => rw [hf] at h; simp at h
  | none =>
    rw [hf] at h
    cases hd : f.contains '-' <;> cases hp : f.contains '+' <;> rw [hd, hp] at h
    · exact Or.inl ⟨by simpa using h.symm, rfl⟩
    · exact Or.inr ⟨by simpa using h.symm, rfl⟩
    · exact Or.inl ⟨by simpa using h.symm, rfl⟩
    · simp at h

theorem mem_splitOn_props (d : Char) :
    ∀ (f : List Char), ∀ tok ∈ f.splitOn d, d ∉ tok ∧ ∀ c ∈ tok, c ∈ f := by
  intro f
  induction f with
  | nil =>
    intro tok htok
    simp only [List.splitOn, List.splitOnP_nil, List.mem_singleton] at htok
    subst htok
    simp
  | cons x rest ih =>
    intro tok htok
    have hsplit : (x :: rest).splitOn d =
        if x == d then [] :: rest.splitOn d
        else (rest.splitOn d).modifyHead (List.cons x) := by
      simp [List.splitOn, List.splitOnP_cons]
    by_cases hx : x = d
    · rw [hsplit, if_pos (by simp [hx])] at htok
      rcases List.mem_cons.mp htok with htok | htok
      · subst htok; simp
      · obtain ⟨h1, h2⟩ := ih tok htok
        exact ⟨h1, fun c hc => List.mem_cons_of_mem _ (h2 c hc)⟩
    · rw [hsplit, if_neg (by simp [hx])] at htok
      cases hsp : rest.splitOn d with
      | nil => exact absurd hsp (by simp [List.splitOn, List.splitOnP_ne_nil])
      | cons h0 t0 =>
        rw [hsp, List.modifyHead_cons] at htok
        have hh0 := ih h0 (hsp ▸ List.mem_cons_self _ _)
        rcases List.mem_cons.mp htok with htok | htok
        · subst htok
          constructor
          · intro hd
            rcases List.mem_cons.mp hd with hd | hd
            · exact hx hd.symm
            · exact hh0.1 hd
          · intro c hc
            rcases List.mem_cons.mp hc with hc | hc
            · exact hc ▸ List.mem_cons_self _ _
            · exact List.mem_cons_of_mem _ (hh0.2 c hc)
        · obtain ⟨h1, h2⟩ := ih tok (hsp ▸ List.mem_cons_of_mem _ htok)
          exact ⟨h1, fun c hc => List.mem_cons_of_mem _ (h2 c hc)⟩

theorem splitOn_joinDash :
    ∀ (vs : List (List Char)), vs ≠ [] → (∀ v ∈ vs, '-' ∉ v) →
    (joinDash vs).splitOn '-' = vs := by
  intro vs
  induction vs with
  | nil => intro h; exact absurd rfl h
  | cons v rest ih =>
    intro _ hnd
    cases rest with
    | nil =>
      show (joinDash [v]).splitOn '-' = [v]
      rw [joinDash]
      refine List.splitOnP_eq_single _ _ ?_
      intro x hx hbe
      rw [beq_iff_eq] at hbe
      subst hbe
      exact hnd v (by simp) hx
    | cons w rest' =>
      rw [joinDash]
      show (v ++ '-' :: joinDash (w :: rest')).splitOnP (· == '-') = v :: w :: rest'
      have hfirst : ∀ x ∈ v, ¬((x == '-') = true) := by
        intro x hx hbe
        rw [beq_iff_eq] at hbe
        subst hbe
        exact hnd v (by simp) hx
      rw [List.splitOnP_first _ _ hfirst '-' (by simp)]
      have := ih (by simp) (fun u hu => hnd u (List.mem_cons_of_mem _ hu))
      simpa [List.splitOn] using this

theorem mem_joinDash {c : Char} :
    ∀ {vs : List (List Char)}, c ∈ joinDash vs → c = '-' ∨ ∃ v ∈ vs, c ∈ v := by
  intro vs
  induction vs with
  | nil => intro h; simp [joinDash] at h
  | cons v rest ih =>
    intro h
    cases rest with
    | nil =>
      rw [joinDash] at h
      exact Or.inr ⟨v, by simp, h⟩
    | cons w rest' =>
      rw [joinDash] at h
      rcases List.mem_append.mp h with h | h
      · exact Or.inr ⟨v, by simp, h⟩
      · rcases List.mem_cons.mp h with h | h
        · exact Or.inl h
        · rcases ih h with h | ⟨u, hu, hcu⟩
          · exact Or.inl h
          · exact Or.inr ⟨u, List.mem_cons_of_mem _ hu, hcu⟩

/-- Well-formed fragment token: nonempty, over the canonical token alphabet. -/
def TokOk (t : List Char) : Prop :=
  t ≠ [] ∧ ∀ c ∈ t, digitUpper c = true

instance (t : List Char) : Decidable (TokOk t) :=
  decidable_of_iff (t ≠ [] ∧ ∀ c ∈ t, digitUpper c = true) Iff.rfl

/-- Invariant of the token maps set_param builds: keys strictly ascending,
each key derived from its token, each token well formed. -/
def MapWf (m : List (List Char × List Char)) : Prop :=
  List.Pairwise keyLt m ∧ (∀ p ∈ m, tokenKey p.2 = p.1) ∧ ∀ p ∈ m, TokOk p.2

theorem mapWf_nil : MapWf [] :=
  ⟨List.Pairwise.nil, by simp, by simp⟩

theorem mapWf_insert {m : List (List Char × List Char)} (hm : MapWf m)
    {t : List Char} (ht : TokOk t) : MapWf (mapInsert m (tokenKey t) t) := by
  refine ⟨pairwise_mapInsert m (tokenKey t) t hm.1, ?_, ?_⟩
  · intro p hp
    rcases mem_mapInsert m (tokenKey t) t p hp with hp | hp
    · subst hp; rfl
    · exact hm.2.1 p hp
  · intro p hp
    rcases mem_mapInsert m (tokenKey t) t p hp with hp | hp
    · subst hp; exact ht
    · exact hm.2.2 p hp

theorem foldWf (ts : List (List Char)) (hts : ∀ t ∈ ts, TokOk t)
    (m : List (List Char × List Char)) (hm : MapWf m) :
    MapWf (ts.foldl (fun acc t => mapInsert acc (tokenKey t) t) m) := by
  induction ts generalizing m with
  | nil => exact hm
  | cons t rest ih =>
    rw [List.foldl_cons]
    exact ih (fun u hu => hts u (List.mem_cons_of_mem _ hu))
      _ (mapWf_insert hm (hts t (List.mem_cons_self _ _)))

theorem fragToks_tokOk {f : List Char} {d : Char}
    (h : check_fragment_delimiter f = .ok d) :
    ∀ t ∈ fragToks f d, TokOk t := by
  intro t ht
  rw [fragToks, List.mem_filter] at ht
  obtain ⟨hmem, hne⟩ := ht
  obtain ⟨hdt, hchars⟩ := mem_splitOn_props d f t hmem
  refine ⟨by simpa using hne, fun c hc => ?_⟩
  have hcf : c ∈ f := hchars c hc
  rcases validFragChar_cases (check_ok_all_valid h c hcf) with hd | hc' | hc'
  · exact hd
  · subst hc'
    rcases check_ok_delim h with ⟨hd1, _⟩ | ⟨_, hd2⟩
    · have hdt2 : '-' ∉ t := by rw [hd1] at hdt; exact hdt
      exact absurd hc hdt2
    · have hnotin : '-' ∉ f := by simpa using hd2
      exact absurd hcf hnotin
  · subst hc'
    rcases check_ok_delim h with ⟨_, hp2⟩ | ⟨hd1, _⟩
    · have hnotin : '+' ∉ f := by simpa using hp2
      exact absurd hcf hnotin
    · have hdt2 : '+' ∉ t := by rw [hd1] at hdt; exact hdt
      exact absurd hc hdt2

theorem fragMap_wf {f : List Char} {d : Char}
    (h : check_fragment_delimiter f = .ok d) : MapWf (fragMap f d) :=
  foldWf _ (fragToks_tokOk h) [] mapWf_nil

/-- The url with only its fragment component replaced. -/
def withFragment (url : Url) (f : Option (List Char)) : Url :=
  { url with fragment := f }

theorem foldl_mapInsert_sorted :
    ∀ (m₂ m₁ : List (List Char × List Char)),
      List.Pairwise keyLt (m₁ ++ m₂) → (∀ p ∈ m₂, tokenKey p.2 = p.1) →
      (m₂.map Prod.snd).foldl (fun acc t => mapInsert acc (tokenKey t) t) m₁ = m₁ ++ m₂ := by
  intro m₂
  induction m₂ with
  | nil => intro m₁ _ _; simp
  | cons q rest ih =>
    obtain ⟨k, v⟩ := q
    intro m₁ hsort hkeys
    have hkv : tokenKey v = k := hkeys (k, v) (List.mem_cons_self _ _)
    have hgt : ∀ p ∈ m₁, lexLt p.1 k = true := by
      intro p hp
      exact (List.pairwise_append.mp hsort).2.2 p hp (k, v) (List.mem_cons_self _ _)
    rw [List.map_cons, List.foldl_cons, hkv, mapInsert_append_gt m₁ k v hgt]
    have hsort' : List.Pairwise keyLt ((m₁ ++ [(k, v)]) ++ rest) := by
      rwa [List.append_assoc, List.singleton_append]
    rw [ih (m₁ ++ [(k, v)]) hsort' (fun p hp => hkeys p (List.mem_cons_of_mem _ hp))]
    rw [List.append_assoc, List.singleton_append]

theorem renderToks_check {m : List (List Char × List Char)} (hm : MapWf m) :
    check_fragment_delimiter (renderToks m) = .ok '-' := by
  have hchars : ∀ c ∈ renderToks m, validFragChar c = true ∧ c ≠ '+' := by
    intro c hc
    rcases mem_joinDash hc with hc' | ⟨v, hv, hcv⟩
    · subst hc'; exact ⟨by decide, by decide⟩
    · obtain ⟨q, hq, hqv⟩ := List.mem_map.mp hv
      have htok := hm.2.2 q hq
      have hc2 : c ∈ q.2 := by rw [hqv]; exact hcv
      have := htok.2 c hc2
      exact ⟨digitUpper_valid this, digitUpper_ne_plus this⟩
  rw [check_eq_find]
  have hfind : (renderToks m).find? (fun c => !validFragChar c) = none :=
    List.find?_eq_none.mpr (fun x hx => by simp [(hchars x hx).1])
  have hplus : (renderToks m).contains '+' = false := by
    by_cases h : '+' ∈ renderToks m
    · exact absurd rfl ((hchars '+' h).2)
    · simpa using h
  rw [hfind, hplus]
  cases hd : (renderToks m).contains '-' <;> rfl

theorem renderToks_fragToks {m : List (List Char × List Char)} (hm : MapWf m) :
    fragToks (renderToks m) '-' = m.map Prod.snd := by
  cases m with
  | nil => rfl
  | cons q rest =>
    have hnd : ∀ v ∈ ((q :: rest).map Prod.snd), '-' ∉ v := by
      intro v hv hdm
      obtain ⟨p, hp, hpv⟩ := List.mem_map.mp hv
      have htok := hm.2.2 p hp
      have : digitUpper '-' = true := htok.2 '-' (by rw [hpv]; exact hdm)
      exact absurd this (by decide)
    rw [fragToks, renderToks, splitOn_joinDash _ (by simp) hnd]
    refine List.filter_eq_self.mpr ?_
    intro v hv
    obtain ⟨p, hp, hpv⟩ := List.mem_map.mp hv
    have htok := hm.2.2 p hp
    have hne : v ≠ [] := by rw [← hpv]; exact htok.1
    simpa using hne

theorem fragMap_renderToks {m : List (List Char × List Char)} (hm : MapWf m) :
    fragMap (renderToks m) '-' = m := by
  show (fragToks (renderToks m) '-').foldl (fun acc t => mapInsert acc (tokenKey t) t) [] = m
  rw [renderToks_fragToks hm]
  exact foldl_mapInsert_sorted m [] (by simpa using hm.1) hm.2.1

theorem set_param_eq (url : Url) (t : List Char) {d : Char}
    (hd : check_fragment_delimiter (url.fragment.getD []) = .ok d) :
    set_param url t = .ok (withFragment url
      (some (renderToks (mapInsert (fragMap (url.fragment.getD []) d) (tokenKey t) t)))) := by
  show (match check_fragment_delimiter (url.fragment.getD []) with
    | Except.error e => Except.error e
    | Except.ok delim =>
      let params := mapInsert (fragMap (url.fragment.getD []) delim) (tokenKey t) t
      if params.isEmpty then Except.ok (withFragment url none)
      else Except.ok (withFragment url (some (renderToks params)))) =
    Except.ok (withFragment url
      (some (renderToks (mapInsert (fragMap (url.fragment.getD []) d) (tokenKey t) t))))
  rw [hd]
  have hne : (mapInsert (fragMap (url.fragment.getD []) d) (tokenKey t) t).isEmpty = false := by
    cases hmi : mapInsert (fragMap (url.fragment.getD []) d) (tokenKey t) t with
    | nil => exact absurd hmi (mapInsert_ne_nil _ _ _)
    | cons a l => rfl
  simp only [hne]
  rfl

/-- Sequence of set_param writes, the composition a caller performs through
the typed setters. -/
def writeAll (url : Url) : List (List Char) → Except ParseFragmentError Url
  | [] => .ok url
  | t :: ts =>
    match set_param url t with
    | .error e => .error e
    | .ok u' => writeAll u' ts

theorem writeAll_render (ts : List (List Char)) :
    ∀ (url : Url) (m : List (List Char × List Char)),
      url.fragment = some (renderToks m) → MapWf m → (∀ t ∈ ts, TokOk t) →
      writeAll url ts = .ok (withFragment url
        (some (renderToks (ts.foldl (fun acc t => mapInsert acc (tokenKey t) t) m)))) := by
  induction ts with
  | nil =>
    intro url m hfrag hwf hts
    rw [writeAll, List.foldl_nil, ← hfrag]
    obtain ⟨s, h, p, q, fr⟩ := url
    rfl
  | cons t ts ih =>
    intro url m hfrag hwf hts
    have hgetd : url.fragment.getD [] = renderToks m := by rw [hfrag]; rfl
    have hd : check_fragment_delimiter (url.fragment.getD []) = .ok '-' := by
      rw [hgetd]; exact renderToks_check hwf
    rw [writeAll, set_param_eq url t hd, hgetd, fragMap_renderToks hwf, List.foldl_cons]
    exact ih _ (mapInsert m (tokenKey t) t) rfl
      (mapWf_insert hwf (hts t (List.mem_cons_self _ _)))
      (fun u hu => hts u (List.mem_cons_of_mem _ hu))

theorem writeAll_start (url : Url) {d : Char}
    (hd : check_fragment_delimiter (url.fragment.getD []) = .ok d)
    (ts : List (List Char)) (hts : ∀ t ∈ ts, TokOk t) (hne : ts ≠ []) :
    writeAll url ts = .ok (withFragment url
      (some (renderToks (ts.foldl (fun acc t => mapInsert acc (tokenKey t) t)
        (fragMap (url.fragment.getD []) d))))) := by
  cases ts with
  | nil => exact absurd rfl hne
  | cons t ts' =>
    rw [writeAll, set_param_eq url t hd, List.foldl_cons]
    exact writeAll_render ts' _ _ rfl
      (mapWf_insert (fragMap_wf hd) (hts t (List.mem_cons_self _ _)))
      (fun u hu => hts u (List.mem_cons_of_mem _ hu))

theorem foldl_insTok_perm {ts₁ ts₂ : List (List Char)} (hperm : ts₁.Perm ts₂)
    (hkeys : (ts₁.map tokenKey).Nodup) (m : List (List Char × List Char)) :
    ts₁.foldl (fun acc t => mapInsert acc (tokenKey t) t) m
      = ts₂.foldl (fun acc t => mapInsert acc (tokenKey t) t) m := by
  refine List.Perm.foldl_eq' hperm ?_ m
  intro x hx y hy z
  by_cases hxy : x = y
  · subst hxy; rfl
  · have hk : tokenKey x ≠ tokenKey y := fun he =>
      hxy (List.inj_on_of_nodup_map hkeys hx hy he)
    exact mapInsert_comm z (tokenKey x) (tokenKey y) x y hk

theorem mem_foldl_of_mem (qs : List (List Char)) :
    ∀ (m : List (List Char × List Char)) (p : List Char × List Char),
      p ∈ m → (∀ q ∈ qs, tokenKey q ≠ p.1) →
      p ∈ qs.foldl (fun acc t => mapInsert acc (tokenKey t) t) m := by
  induction qs with
  | nil => intro m p hp _; exact hp
  | cons q rest ih =>
    intro m p hp hq
    rw [List.foldl_cons]
    refine ih _ p (mem_mapInsert_of_ne _ _ _ p hp ?_) ?_
    · exact (hq q (List.mem_cons_self _ _)).symm
    · exact fun q' hq' => hq q' (List.mem_cons_of_mem _ hq')

theorem mem_foldl_insTok :
    ∀ (ts : List (List Char)) (m : List (List Char × List Char)) (t : List Char),
      t ∈ ts → ((ts.map tokenKey).Nodup) →
      (tokenKey t, t) ∈ ts.foldl (fun acc t => mapInsert acc (tokenKey t) t) m := by
  intro ts
  induction ts with
  | nil => intro m t ht; simp at ht
  | cons u rest ih =>
    intro m t ht hnd
    rw [List.map_cons, List.nodup_cons] at hnd
    rw [List.foldl_cons]
    rcases List.mem_cons.mp ht with ht | ht
    · subst ht
      refine mem_foldl_of_mem rest _ _ (mem_mapInsert_self m _ _) ?_
      intro q hq he
      exact hnd.1 (List.mem_map.mpr ⟨q, hq, he⟩)
    · exact ih _ t ht hnd.2

/-- C5: writing fragment tokens through set_param is order-independent and
idempotent. Over any starting fragment with a defined delimiter, writing a
set of well-formed tokens with distinct keys in any order gives the same
result, writing one of them again changes nothing, the final fragment is the
token list sorted ascending by key joined with '-', and a fragment using the
legacy '+' delimiter is rewritten with '-' on the first write with its token
content preserved up to same-key overwriting. -/
theorem set_param_canonicalization :
    (∀ (url : Url) (d : Char) (ts₁ ts₂ : List (List Char)),
      check_fragment_delimiter (url.fragment.getD []) = .ok d →
      (∀ t ∈ ts₁, TokOk t) → ((ts₁.map tokenKey).Nodup) → ts₁.Perm ts₂ →
      writeAll url ts₁ = writeAll url ts₂) ∧
    (∀ (url : Url) (d : Char) (ts : List (List Char)) (t : List Char),
      check_fragment_delimiter (url.fragment.getD []) = .ok d →
      (∀ u ∈ ts, TokOk u) → ((ts.map tokenKey).Nodup) → t ∈ ts →
      writeAll url (ts ++ [t]) = writeAll url ts) ∧
    (∀ (url : Url) (d : Char) (ts : List (List Char)) (u' : Url),
      check_fragment_delimiter (url.fragment.getD []) = .ok d →
      (∀ t ∈ ts, TokOk t) → writeAll url ts = .ok u' → ts ≠ [] →
      ∃ toks, u'.fragment = some (joinDash toks) ∧
        List.Pairwise (fun a b => lexLt (tokenKey a) (tokenKey b) = true) toks) ∧
    (∀ (url : Url) (f t : List Char) (u' : Url),
      url.fragment = some f →
      check_fragment_delimiter f = .ok '+' → TokOk t →
      (((fragToks f '+').map tokenKey).Nodup) →
      set_param url t = .ok u' →
      ∃ g, u'.fragment = some g ∧ check_fragment_delimiter g = .ok '-' ∧
        t ∈ fragToks g '-' ∧
        ∀ tok ∈ fragToks f '+', tokenKey tok = tokenKey t ∨ tok ∈ fragToks g '-') := by
  refine ⟨?_, ?_, ?_, ?_⟩
  · intro url d ts₁ ts₂ hd hts hnd hperm
    cases ts₁ with
    | nil =>
      have h2 : ts₂ = [] := hperm.symm.eq_nil
      rw [h2]
    | cons t ts' =>
      have hts₂ : ∀ u ∈ ts₂, TokOk u := fun u hu => hts u (hperm.mem_iff.mpr hu)
      have h2ne : ts₂ ≠ [] := by
        intro h
        rw [h] at hperm
        exact absurd hperm.eq_nil (by simp)
      rw [writeAll_start url hd _ hts (by simp),
        writeAll_start url hd ts₂ hts₂ h2ne,
        foldl_insTok_perm hperm hnd]
  · intro url d ts t hd hts hnd hmem
    have htsne : ts ≠ [] := by rintro rfl; simp at hmem
    have hts' : ∀ u ∈ ts ++ [t], TokOk u := by
      intro u hu
      rcases List.mem_append.mp hu with hu | hu
      · exact hts u hu
      · rw [List.mem_singleton.mp hu]; exact hts t hmem
    rw [writeAll_start url hd (ts ++ [t]) hts' (by simp),
      writeAll_start url hd ts hts htsne, List.foldl_append, List.foldl_cons,
      List.foldl_nil]
    have hwfM : MapWf (ts.foldl (fun acc t => mapInsert acc (tokenKey t) t)
        (fragMap (url.fragment.getD []) d)) :=
      foldWf ts hts _ (fragMap_wf hd)
    rw [mapInsert_self _ _ _ hwfM.1 (mem_foldl_insTok ts _ t hmem hnd)]
  · intro url d ts u' hd hts hall hne
    rw [writeAll_start url hd ts hts hne] at hall
    simp only [Except.ok.injEq] at hall
    subst hall
    have hwfM : MapWf (ts.foldl (fun acc t => mapInsert acc (tokenKey t) t)
        (fragMap (url.fragment.getD []) d)) :=
      foldWf ts hts _ (fragMap_wf hd)
    refine ⟨_, rfl, ?_⟩
    rw [List.pairwise_map]
    refine hwfM.1.imp_of_mem ?_
    intro a b ha hb hr
    have h1 := hwfM.2.1 a ha
    have h2 := hwfM.2.1 b hb
    rw [h1, h2]
    exact hr
  · intro url f t u' hfrag hplus htok hnd hset
    have hgetd : url.fragment.getD [] = f := by rw [hfrag]; rfl
    have hd : check_fragment_delimiter (url.fragment.getD []) = .ok '+' := by
      rw [hgetd]; exact hplus
    rw [set_param_eq url t hd, hgetd] at hset
    simp only [Except.ok.injEq] at hset
    subst hset
    have hwfM : MapWf (mapInsert (fragMap f '+') (tokenKey t) t) :=
      mapWf_insert (fragMap_wf hplus) htok
    refine ⟨_, rfl, renderToks_check hwfM, ?_, ?_⟩
    · rw [renderToks_fragToks hwfM]
      exact List.mem_map.mpr ⟨(tokenKey t, t), mem_mapInsert_self _ _ _, rfl⟩
    · intro tok htokmem
      by_cases hk : tokenKey tok = tokenKey t
      · exact Or.inl hk
      · refine Or.inr ?_
        have hmem0 : (tokenKey tok, tok) ∈ fragMap f '+' :=
          mem_foldl_insTok (fragToks f '+') [] tok htokmem hnd
        have hmem1 : (tokenKey tok, tok) ∈ mapInsert (fragMap f '+') (tokenKey t) t :=
          mem_mapInsert_of_ne _ _ _ _ hmem0 hk
        rw [renderToks_fragToks hwfM]
        exact List.mem_map.mpr ⟨(tokenKey tok, tok), hmem1, rfl⟩

/-- Witness for C5: two distinct-key tokens written to a fragmentless url in
either order give the same result. -/
theorem set_param_canonicalization_witness :
    writeAll ⟨"https".data, "example.com".data, "/".data, none, none⟩
      ["OH1B".data, "EX1A".data] =
    writeAll ⟨"https".data, "example.com".data, "/".data, none, none⟩
      ["EX1A".data, "OH1B".data] :=
  set_param_canonicalization.1
    ⟨"https".data, "example.com".data, "/".data, none, none⟩ '-'
    ["OH1B".data, "EX1A".data] ["EX1A".data, "OH1B".data]
    rfl (by decide) (by decide) (List.Perm.swap _ _ _)

instance {ε α : Type} [DecidableEq ε] [DecidableEq α] : DecidableEq (Except ε α) :=
  fun a b =>
    match a, b with
    | .error e1, .error e2 =>
      if h : e1 = e2 then isTrue (by rw [h]) else isFalse (fun hc => h (by injection hc))
    | .ok v1, .ok v2 =>
      if h : v1 = v2 then isTrue (by rw [h]) else isFalse (fun hc => h (by injection hc))
    | .error _, .ok _ => isFalse (fun hc => Except.noConfusion hc)
    | .ok _, .error _ => isFalse (fun hc => Except.noConfusion hc)

theorem check_ambiguous {f : List Char} (hvalid : ∀ c ∈ f, validFragChar c = true)
    (hdash : '-' ∈ f) (hplus : '+' ∈ f) :
    check_fragment_delimiter f = .error .AmbiguousDelimiter := by
  rw [check_eq_find]
  have hfind : f.find? (fun c => !validFragChar c) = none :=
    List.find?_eq_none.mpr (fun x hx => by simp [hvalid x hx])
  rw [hfind]
  simp [hdash, hplus]

theorem set_param_err (url : Url) (t : List Char) {e : ParseFragmentError}
    (hc : check_fragment_delimiter (url.fragment.getD []) = .error e) :
    set_param url t = .error e := by
  show (match check_fragment_delimiter (url.fragment.getD []) with
    | Except.error e => Except.error e
    | Except.ok delim =>
      let params := mapInsert (fragMap (url.fragment.getD []) delim) (tokenKey t) t
      if params.isEmpty then Except.ok (withFragment url none)
      else Except.ok (withFragment url (some (renderToks params)))) = Except.error e
  rw [hc]

/-- C6 is refuted by the code: set_exp does fail, by panicking, for times of
2^32 seconds or more past the epoch, where the u32 try_into unwrap panics
(first conjunct); for representable times it writes the EX token under the
fixed little-endian 4-byte encoding (second conjunct, the spec's example
vector), and times before the epoch saturate to 0 (third conjunct). -/
theorem set_exp_panics_past_u32 :
    Url.set_exp ⟨"https".data, "example.com".data, "/".data, none, none⟩ 4294967296
      = none ∧
    Url.set_exp ⟨"https".data, "example.com".data, "/".data, none, none⟩ 1720547781
      = some ⟨"https".data, "example.com".data, "/".data, none, some "EX1C4UC6ES".data⟩ ∧
    Url.set_exp ⟨"https".data, "example.com".data, "/".data, none, none⟩ (-5)
      = some ⟨"https".data, "example.com".data, "/".data, none, some "EX1QQQQQQQ".data⟩ := by
  decide

/-- C7 counterexample: a fragment containing both '-' and '+' together with a
character outside the admissible set fails with InvalidChar, not with
AmbiguousDelimiter, so the claim as stated does not hold of every such
fragment. -/
theorem ambiguous_claim_counterexample :
    '-' ∈ "a-+".data ∧ '+' ∈ "a-+".data ∧
    get_param ⟨"https".data, "example.com".data, "/".data, none, some "a-+".data⟩
      "EX1".data = .error (.InvalidChar 'a') ∧
    ¬ get_param ⟨"https".data, "example.com".data, "/".data, none, some "a-+".data⟩
      "EX1".data = .error .AmbiguousDelimiter := by
  decide

/-- C7 amended: for every fragment over the admissible character set that
contains both '-' and '+', every fragment read and write fails with
AmbiguousDelimiter: get_param and set_param return it directly, the typed
getters surface it as InvalidFragment, and the typed setters hit set_param's
expect, modelled as the error and as none for set_exp. -/
theorem ambiguous_fragment_fails_all (url : Url) (f : List Char)
    (hfrag : url.fragment = some f) (hvalid : ∀ c ∈ f, validFragChar c = true)
    (hdash : '-' ∈ f) (hplus : '+' ∈ f) :
    (∀ pfx, get_param url pfx = .error .AmbiguousDelimiter) ∧
    (∀ t, set_param url t = .error .AmbiguousDelimiter) ∧
    url.receiver_pubkey = .error (.InvalidFragment .AmbiguousDelimiter) ∧
    url.ohttp = .error (.InvalidFragment .AmbiguousDelimiter) ∧
    url.exp = .error (.InvalidFragment .AmbiguousDelimiter) ∧
    (∀ pk, url.set_receiver_pubkey pk = .error .AmbiguousDelimiter) ∧
    (∀ k, url.set_ohttp k = .error .AmbiguousDelimiter) ∧
    (∀ e, url.set_exp e = none) := by
  have hcheck : check_fragment_delimiter f = .error .AmbiguousDelimiter :=
    check_ambiguous hvalid hdash hplus
  have hgetd : url.fragment.getD [] = f := by rw [hfrag]; rfl
  have hget : ∀ pfx, get_param url pfx = .error .AmbiguousDelimiter := by
    intro pfx
    simp [get_param, hfrag, hcheck]
  have hset : ∀ t, set_param url t = .error .AmbiguousDelimiter :=
    fun t => set_param_err url t (by rw [hgetd]; exact hcheck)
  refine ⟨hget, hset, ?_, ?_, ?_, ?_, ?_, ?_⟩
  · simp [Url.receiver_pubkey, hget]
  · simp [Url.ohttp, hget]
  · simp [Url.exp, hget]
  · intro pk
    simp [Url.set_receiver_pubkey, hset]
  · intro k
    simp [Url.set_ohttp, hset]
  · intro e
    cases he : (if (0 : Int) ≤ e then
        (if e < 4294967296 then some e.toNat else none) else some 0) with
    | none => simp [Url.set_exp, he]
    | some t => simp [Url.set_exp, he, hset]

/-- Witness for C7 amended: on the all-admissible ambiguous fragment A-+ the
EX read fails with AmbiguousDelimiter. -/
theorem ambiguous_fragment_fails_all_witness :
    get_param ⟨"https".data, "example.com".data, "/".data, none, some "A-+".data⟩
      "EX1".data = .error .AmbiguousDelimiter :=
  (ambiguous_fragment_fails_all
    ⟨"https".data, "example.com".data, "/".data, none, some "A-+".data⟩
    "A-+".data rfl (by decide) (by decide) (by decide)).1 "EX1".data

theorem joinDash_ne_nil {vs : List (List Char)} (hne : vs ≠ [])
    (hv : ∀ v ∈ vs, v ≠ []) : joinDash vs ≠ [] := by
  cases vs with
  | nil => exact absurd rfl hne
  | cons v rest =>
    cases rest with
    | nil => rw [joinDash]; exact hv v (by simp)
    | cons w rest' =>
      rw [joinDash]
      simp

theorem foldl_vals_ne_nil (ts : List (List Char)) (h : ∀ t ∈ ts, t ≠ []) :
    ∀ (m : List (List Char × List Char)), (∀ p ∈ m, p.2 ≠ []) →
    ∀ p ∈ ts.foldl (fun acc t => mapInsert acc (tokenKey t) t) m, p.2 ≠ [] := by
  induction ts with
  | nil => intro m hm p hp; exact hm p hp
  | cons t rest ih =>
    intro m hm p hp
    rw [List.foldl_cons] at hp
    refine ih (fun u hu => h u (List.mem_cons_of_mem _ hu)) _ ?_ p hp
    intro q hq
    rcases mem_mapInsert m (tokenKey t) t q hq with hq | hq
    · rw [hq]; exact h t (List.mem_cons_self _ _)
    · exact hm q hq

theorem fragToks_ne_nil (f : List Char) (d : Char) :
    ∀ t ∈ fragToks f d, t ≠ [] := by
  intro t ht
  rw [fragToks, List.mem_filter] at ht
  simpa using ht.2

/-- Frame property of one set_param write: only the fragment changes, and the
new fragment is present and, when the written token is nonempty, nonempty. -/
theorem set_param_frame (url u' : Url) (t : List Char) (htne : t ≠ [])
    (h : set_param url t = .ok u') :
    u'.scheme = url.scheme ∧ u'.host = url.host ∧ u'.path = url.path ∧
    u'.query = url.query ∧ ∃ g, u'.fragment = some g ∧ g ≠ [] := by
  cases hc : check_fragment_delimiter (url.fragment.getD []) with
  | error e =>
    rw [set_param_err url t hc] at h
    exact absurd h (by simp)
  | ok d =>
    rw [set_param_eq url t hc] at h
    simp only [Except.ok.injEq] at h
    subst h
    refine ⟨rfl, rfl, rfl, rfl, _, rfl, ?_⟩
    have hvals : ∀ p ∈ mapInsert (fragMap (url.fragment.getD []) d) (tokenKey t) t,
        p.2 ≠ [] := by
      intro p hp
      rcases mem_mapInsert _ _ _ p hp with hp | hp
      · rw [hp]; exact htne
      · exact foldl_vals_ne_nil (fragToks (url.fragment.getD []) d)
          (fragToks_ne_nil _ _) [] (by simp) p hp
    refine joinDash_ne_nil ?_ ?_
    · simp [mapInsert_ne_nil]
    · intro v hv
      obtain ⟨p, hp, hpv⟩ := List.mem_map.mp hv
      rw [← hpv]
      exact hvals p hp

/-- C10: each typed setter that returns changes only the fragment of the url:
the scheme, host, path and query are those of the input, and the fragment is
present and nonempty afterwards, because the newly written token is always
inserted, so the clear-fragment branch never runs on a set (for set_ohttp
under the external guarantee that the serialized key configuration text is
nonempty). -/
theorem typed_setters_frame :
    (∀ (url u' : Url) (pk : HpkePublicKey), url.set_receiver_pubkey pk = .ok u' →
      u'.scheme = url.scheme ∧ u'.host = url.host ∧ u'.path = url.path ∧
      u'.query = url.query ∧ ∃ g, u'.fragment = some g ∧ g ≠ []) ∧
    (∀ (url u' : Url) (k : OhttpKeys), k.text ≠ [] → url.set_ohttp k = .ok u' →
      u'.scheme = url.scheme ∧ u'.host = url.host ∧ u'.path = url.path ∧
      u'.query = url.query ∧ ∃ g, u'.fragment = some g ∧ g ≠ []) ∧
    (∀ (url u' : Url) (e : Int), url.set_exp e = some u' →
      u'.scheme = url.scheme ∧ u'.host = url.host ∧ u'.path = url.path ∧
      u'.query = url.query ∧ ∃ g, u'.fragment = some g ∧ g ≠ []) := by
  refine ⟨?_, ?_, ?_⟩
  · intro url u' pk h
    exact set_param_frame url u' _ (by simp [nochecksumEncode]) h
  · intro url u' k hk h
    exact set_param_frame url u' _ hk h
  · intro url u' e h
    cases he : (if (0 : Int) ≤ e then
        (if e < 4294967296 then some e.toNat else none) else some 0) with
    | none => rw [Url.set_exp, he] at h; exact absurd h (by simp)
    | some t =>
      rw [Url.set_exp, he] at h
      simp only [] at h
      cases hsp : set_param url (nochecksumEncode "EX".data (u32LEBytes t)) with
      | error e2 => rw [hsp] at h; exact absurd h (by simp)
      | ok u'' =>
        rw [hsp] at h
        simp only [Option.some.injEq] at h
        subst h
        exact set_param_frame url u'' _ (by simp [nochecksumEncode]) hsp

/-- Witness for C10: setting the expiry on a fragmentless url yields a
nonempty fragment. -/
theorem typed_setters_frame_witness :
    ∃ g, (⟨"https".data, "example.com".data, "/".data, none,
      some "EX1QQQQQQQ".data⟩ : Url).fragment = some g ∧ g ≠ [] :=
  (typed_setters_frame.2.2 ⟨"https".data, "example.com".data, "/".data, none, none⟩
    ⟨"https".data, "example.com".data, "/".data, none, some "EX1QQQQQQQ".data⟩
    0 (by decide)).2.2.2.2

/-- Serialization followed by re-parsing: the query parameters emitted for a
PayjoinExtras value, every value being valid UTF-8 text, fed back through the
deserialization state machine. -/
def roundTrip (urlParse : List Char → Option Url) (extras : PayjoinExtras) :
    Except InternalPjParseError MaybePayjoinExtras :=
  deserializeAll urlParse (extras.serialize_params.map (fun p => (p.1, some p.2)))

/-- C2 counterexample: a PayjoinExtras value whose endpoint passes the
transport-security gate but carries a lowercase fragment does not round-trip:
re-parsing fails with LowercaseFragment even though the external parser
returns the original url on the serialized text, so the claim as stated is
false. -/
theorem serialize_roundtrip_counterexample :
    (⟨"https".data, "example.com".data, "/".data, none, some "a".data⟩ : Url).scheme
      = "https".data ∧
    (fun s => if s = "HTTPS://EXAMPLE.COM/#a".data
        then some (⟨"https".data, "example.com".data, "/".data, none,
          some "a".data⟩ : Url) else none)
      (upperEndpointText ⟨"https".data, "example.com".data, "/".data, none, some "a".data⟩)
      = some ⟨"https".data, "example.com".data, "/".data, none, some "a".data⟩ ∧
    roundTrip
      (fun s => if s = "HTTPS://EXAMPLE.COM/#a".data
        then some (⟨"https".data, "example.com".data, "/".data, none,
          some "a".data⟩ : Url) else none)
      ⟨⟨"https".data, "example.com".data, "/".data, none, some "a".data⟩, .Enabled⟩
      = .error (.BadEndpoint .LowercaseFragment) ∧
    ¬ roundTrip
      (fun s => if s = "HTTPS://EXAMPLE.COM/#a".data
        then some (⟨"https".data, "example.com".data, "/".data, none,
          some "a".data⟩ : Url) else none)
      ⟨⟨"https".data, "example.com".data, "/".data, none, some "a".data⟩, .Enabled⟩
      = .ok (.Supported
        ⟨⟨"https".data, "example.com".data, "/".data, none, some "a".data⟩, .Enabled⟩) := by
  decide

/-- C2 amended: for every PayjoinExtras value whose endpoint passes the
transport-security gate and whose fragment, when present, contains no
lowercase character, re-parsing the serialized query parameters yields an
equal value — the Disabled policy through the emitted pjos marker, the
Enabled policy through the elided-pjos default — provided the external url
parser returns the original url on the serialized endpoint text. -/
theorem serialize_roundtrip (urlParse : List Char → Option Url) (extras : PayjoinExtras)
    (hgate : extras.endpoint.scheme = "https".data ∨
      (extras.endpoint.scheme = "http".data ∧
        ".onion".data.isSuffixOf (extras.endpoint.domain.getD []) = true))
    (hparse : urlParse (upperEndpointText extras.endpoint) = some extras.endpoint)
    (hfrag : ∀ f, extras.endpoint.fragment = some f → ∀ c ∈ f, ¬ c.isLower) :
    roundTrip urlParse extras = .ok (.Supported extras) := by
  obtain ⟨ep, os⟩ := extras
  dsimp only at hgate hparse hfrag
  have hpwf : parse_with_fragment urlParse (upperEndpointText ep) = .ok ep := by
    show (match urlParse (upperEndpointText ep) with
      | none => Except.error BadEndpointError.UrlParse
      | some url =>
        match url.fragment with
        | some fragment =>
          if fragment.any (fun c => c.isLower) then
            Except.error BadEndpointError.LowercaseFragment
          else Except.ok url
        | none => Except.ok url) = Except.ok ep
    rw [hparse]
    show (match ep.fragment with
      | some fragment =>
        if fragment.any (fun c => c.isLower) then
          Except.error BadEndpointError.LowercaseFragment
        else Except.ok ep
      | none => Except.ok ep) = Except.ok ep
    cases hf : ep.fragment with
    | none => rfl
    | some f =>
      have hlow : (f.any (fun c => c.isLower)) = false :=
        List.any_eq_false.mpr (fun c hc => by simpa using hfrag f hf c hc)
      show (if (f.any (fun c => c.isLower)) = true then
          Except.error BadEndpointError.LowercaseFragment
        else Except.ok ep) = Except.ok ep
      rw [hlow]
      rfl
  have hstep : DeserializationState.deserialize_temp urlParse
      { pj := none, pjos := none } "pj" (some (upperEndpointText ep))
      = .ok ({ pj := some ep, pjos := none }, .Known) := by
    unfold DeserializationState.deserialize_temp
    rw [if_pos rfl, if_pos rfl]
    show (match parse_with_fragment urlParse (upperEndpointText ep) with
      | Except.error e => Except.error (InternalPjParseError.BadEndpoint e)
      | Except.ok url =>
        Except.ok (({ pj := some url, pjos := none } : DeserializationState),
          ParamKind.Known)) = _
    rw [hpwf]
  have hstep2 : DeserializationState.deserialize_temp urlParse
      { pj := none, pjos := some .Disabled } "pj" (some (upperEndpointText ep))
      = .ok ({ pj := some ep, pjos := some .Disabled }, .Known) := by
    unfold DeserializationState.deserialize_temp
    rw [if_pos rfl, if_pos rfl]
    show (match parse_with_fragment urlParse (upperEndpointText ep) with
      | Except.error e => Except.error (InternalPjParseError.BadEndpoint e)
      | Except.ok url =>
        Except.ok (({ pj := some url, pjos := some .Disabled } : DeserializationState),
          ParamKind.Known)) = _
    rw [hpwf]
  cases os with
  | Enabled =>
    show deserializeAll urlParse [("pj", some (upperEndpointText ep))]
      = .ok (.Supported ⟨ep, .Enabled⟩)
    have hrun : runSteps urlParse { pj := none, pjos := none }
        [("pj", some (upperEndpointText ep))] = .ok { pj := some ep, pjos := none } := by
      rw [runSteps, hstep]
      rfl
    show (match runSteps urlParse { pj := none, pjos := none }
        [("pj", some (upperEndpointText ep))] with
      | Except.error e => Except.error e
      | Except.ok st => st.finalize) = Except.ok (.Supported ⟨ep, .Enabled⟩)
    rw [hrun]
    show DeserializationState.finalize { pj := some ep, pjos := none }
      = .ok (.Supported ⟨ep, .Enabled⟩)
    show (if ep.scheme = "https".data
        ∨ (ep.scheme = "http".data
            ∧ ".onion".data.isSuffixOf (ep.domain.getD []) = true) then
      Except.ok (MaybePayjoinExtras.Supported ⟨ep, OutputSubstitution.Enabled⟩)
      else Except.error InternalPjParseError.UnsecureEndpoint)
      = Except.ok (.Supported ⟨ep, .Enabled⟩)
    rw [if_pos hgate]
  | Disabled =>
    show deserializeAll urlParse
      [("pjos", some "0".data), ("pj", some (upperEndpointText ep))]
      = .ok (.Supported ⟨ep, .Disabled⟩)
    have hrun : runSteps urlParse { pj := none, pjos := none }
        [("pjos", some "0".data), ("pj", some (upperEndpointText ep))]
        = .ok { pj := some ep, pjos := some .Disabled } := by
      rw [runSteps]
      show (match DeserializationState.deserialize_temp urlParse
          { pj := none, pjos := none } "pjos" (some "0".data) with
        | Except.error e => Except.error e
        | Except.ok (st', _) => runSteps urlParse st' [("pj", some (upperEndpointText ep))])
        = _
      rw [show DeserializationState.deserialize_temp urlParse
          { pj := none, pjos := none } "pjos" (some "0".data)
          = .ok ({ pj := none, pjos := some .Disabled }, .Known) from rfl]
      show runSteps urlParse { pj := none, pjos := some .Disabled }
        [("pj", some (upperEndpointText ep))] = _
      rw [runSteps, hstep2]
      rfl
    show (match runSteps urlParse { pj := none, pjos := none }
        [("pjos", some "0".data), ("pj", some (upperEndpointText ep))] with
      | Except.error e => Except.error e
      | Except.ok st => st.finalize) = Except.ok (.Supported ⟨ep, .Disabled⟩)
    rw [hrun]
    show (if ep.scheme = "https".data
        ∨ (ep.scheme = "http".data
            ∧ ".onion".data.isSuffixOf (ep.domain.getD []) = true) then
      Except.ok (MaybePayjoinExtras.Supported ⟨ep, OutputSubstitution.Disabled⟩)
      else Except.error InternalPjParseError.UnsecureEndpoint)
      = Except.ok (.Supported ⟨ep, .Disabled⟩)
    rw [if_pos hgate]

/-- Witness for C2 amended: a fragmentless https endpoint with Enabled policy
round-trips to itself. -/
theorem serialize_roundtrip_witness :
    roundTrip
      (fun s => if s = "HTTPS://EXAMPLE.COM/".data
        then some (⟨"https".data, "example.com".data, "/".data, none, none⟩ : Url)
        else none)
      ⟨⟨"https".data, "example.com".data, "/".data, none, none⟩, .Enabled⟩
      = .ok (.Supported
        ⟨⟨"https".data, "example.com".data, "/".data, none, none⟩, .Enabled⟩) :=
  serialize_roundtrip _ _ (Or.inl rfl) (by decide) (fun f hf => by simp at hf)

end Payjoin
